import Mathlib

/-!
Verification of the BackupSeeker core engine (`BackupSeeker/core.py`,
`BackupSeeker/plugin_manager.py`, `BackupSeeker/plugins/base.py`).

The Python code manipulates paths as strings; we embed path strings as
`List Char` (named `Str` below) so that the character-level algorithms of
`os.path` (`normpath`, `expandvars`, `expanduser`, `join`) and of
`PathUtils.contract` can be rendered faithfully and reasoned about by
structural induction.  The model fixes the POSIX branch of the code
(`os.sep = '/'`, `os.path.normcase` is the identity,
`platform.system() != "Windows"`), matching the platform the claims are
evaluated on.  Filesystem facts that the code only queries
(`os.path.exists`, directory emptiness, `os.walk` results) enter the model
as explicit oracle parameters; filesystem effects (archive creation,
deletion, extraction) are modelled as event traces in the order the
synchronous code performs them.
-/

/-- Python strings viewed as lists of characters. -/
abbrev Str := List Char

/-- Coercion from Lean string literals to the character-list representation. -/
def str (s : String) : Str := s.data

/-- Python `"/".split` of a path string: split on every `'/'` character
(`str.split('/')` semantics: `n+1` pieces for `n` separators). -/
def splitSlash : Str → List Str
  | [] => [[]]
  | c :: rest =>
    if c = '/' then [] :: splitSlash rest
    else
      match splitSlash rest with
      | [] => [[c]]
      | h :: t => (c :: h) :: t

/-- Python `"/".join` over path components. -/
def joinSlash (l : List Str) : Str := List.intercalate ['/'] l

/-- Leading-slash count in the sense of `posixpath.normpath`: `2` for exactly
two leading slashes, otherwise `1` for an absolute path, `0` for a relative
one. -/
def initialSlashCount (s : Str) : Nat :=
  if (['/', '/'] <+: s) ∧ ¬ (['/', '/', '/'] <+: s) then 2
  else if ['/'] <+: s then 1
  else 0

/-- Component-processing loop of `posixpath.normpath`: drop empty and `"."`
parts, and let `".."` pop a previous component unless the path is relative
and nothing is left to pop (or the stack already ends in `".."`). -/
def normParts (slashes : Nat) (comps : List Str) : List Str :=
  comps.foldl
    (fun acc comp =>
      if comp = [] ∨ comp = str "." then acc
      else if comp ≠ str ".." ∨ (slashes = 0 ∧ acc = []) ∨ acc.getLast? = some (str "..") then
        acc ++ [comp]
      else if acc ≠ [] then acc.dropLast
      else acc)
    []

/-- Model of `posixpath.normpath`. -/
def normpath (p : Str) : Str :=
  if p = [] then str "." else
  let slashes := initialSlashCount p
  let comps := normParts slashes (splitSlash p)
  let path := List.replicate slashes '/' ++ joinSlash comps
  if path = [] then str "." else path

/-- Model of `posixpath.isabs`. -/
def isAbs (p : Str) : Bool := ['/'] <+: p

/-- Model of `posixpath.join` for two operands (the only arity the embedded
code uses). -/
def pjoin (a b : Str) : Str :=
  if isAbs b then b
  else if a = [] ∨ a.getLast? = some '/' then a ++ b
  else a ++ '/' :: b

/-- Model of `posixpath.abspath`: make absolute by joining the current
working directory, then normalize. -/
def abspath (cwd p : Str) : Str :=
  if isAbs p then normpath p else normpath (pjoin cwd p)

/-- Model of `str(pathlib.PurePosixPath(s))`: drop empty and `"."` parts,
keep `".."`, remember whether the path is rooted (with the `"//"` special
case), and print `"."` for an empty result. -/
def purePosix (s : Str) : Str :=
  let comps := (splitSlash s).filter (fun c => c ≠ [] ∧ c ≠ str ".")
  let root := List.replicate (initialSlashCount s) '/'
  let body := joinSlash comps
  if root = [] ∧ body = [] then str "." else root ++ body

/-- Absolute path assembled from slash-free components: `"/" ++ c₁ ++ "/" ++ …`. -/
def renderAbs (comps : List Str) : Str := '/' :: joinSlash comps

/-- Well-formed path component: nonempty, slash-free, and not one of the
special names `"."` and `".."`.  A normalized absolute path is exactly
`renderAbs` of such components. -/
def CleanComp (c : Str) : Prop :=
  c ≠ [] ∧ '/' ∉ c ∧ c ≠ str "." ∧ c ≠ str ".."

instance (c : Str) : Decidable (CleanComp c) := by
  unfold CleanComp; infer_instance

/-! Basic lemmas about `splitSlash` and `joinSlash`. -/

theorem splitSlash_ne_nil (s : Str) : splitSlash s ≠ [] := by
  induction s with
  | nil => simp [splitSlash]
  | cons c rest ih =>
    by_cases h : c = '/'
    · simp [splitSlash, h]
    · simp only [splitSlash, if_neg h]
      rcases hs : splitSlash rest with _ | ⟨h', t⟩
      · simp
      · simp

theorem joinSlash_nil : joinSlash [] = [] := rfl

theorem joinSlash_single (c : Str) : joinSlash [c] = c := by
  simp [joinSlash, List.intercalate]

theorem joinSlash_cons (c : Str) (l : List Str) (h : l ≠ []) :
    joinSlash (c :: l) = c ++ '/' :: joinSlash l := by
  unfold joinSlash
  rcases l with _ | ⟨d, t⟩
  · exact absurd rfl h
  · simp [List.intercalate]

/-- Splitting a slash-free word gives that single piece back. -/
theorem splitSlash_word (w : Str) (hw : '/' ∉ w) : splitSlash w = [w] := by
  induction w with
  | nil => rfl
  | cons a as iha =>
    have ha : a ≠ '/' := fun hh => hw (by simp [hh])
    have has := iha (fun hm => hw (List.mem_cons_of_mem a hm))
    simp only [splitSlash, if_neg ha, has]

/-- Splitting after a slash-free word peels off that word as the first
piece. -/
theorem splitSlash_word_append (w : Str) (hw : '/' ∉ w) (r : Str) :
    splitSlash (w ++ '/' :: r) = w :: splitSlash r := by
  induction w with
  | nil => simp [splitSlash]
  | cons a as iha =>
    have ha : a ≠ '/' := fun hh => hw (by simp [hh])
    have has := iha (fun hm => hw (List.mem_cons_of_mem a hm))
    simp only [List.cons_append, splitSlash, if_neg ha, List.append_eq, has]

/-- Splitting a slash-joined list of slash-free nonempty components recovers
the components. -/
theorem splitSlash_joinSlash (l : List Str) (hl : l ≠ [])
    (h : ∀ c ∈ l, '/' ∉ c) :
    splitSlash (joinSlash l) = l := by
  induction l with
  | nil => exact absurd rfl hl
  | cons c t ih =>
    rcases t with _ | ⟨d, t'⟩
    · rw [joinSlash_single]
      exact splitSlash_word c (h c (by simp))
    · rw [joinSlash_cons c (d :: t') (by simp)]
      rw [splitSlash_word_append c (h c (by simp)) _]
      rw [ih (by simp) (fun x hx => h x (List.mem_cons_of_mem c hx))]

/-! Normalization fixes rendered clean absolute paths. -/

theorem joinSlash_not_slash_head (comps : List Str)
    (h : ∀ c ∈ comps, CleanComp c) : ¬ ['/'] <+: joinSlash comps := by
  rcases comps with _ | ⟨c, t⟩
  · intro hp
    simp [joinSlash, List.intercalate] at hp
  · obtain ⟨hc, hs, -, -⟩ := h c (by simp)
    rcases c with _ | ⟨a, as⟩
    · exact absurd rfl hc
    · have ha : a ≠ '/' := fun hh => hs (by simp [hh])
      intro hp
      rcases t with _ | ⟨d, t'⟩
      · rw [joinSlash_single] at hp
        rcases List.cons_prefix_cons.mp hp with ⟨h1, -⟩
        exact ha h1.symm
      · rw [joinSlash_cons _ _ (by simp)] at hp
        rcases List.cons_prefix_cons.mp hp with ⟨h1, -⟩
        exact ha h1.symm

theorem initialSlashCount_renderAbs (comps : List Str)
    (h : ∀ c ∈ comps, CleanComp c) : initialSlashCount (renderAbs comps) = 1 := by
  unfold initialSlashCount renderAbs
  have h2 : ¬ (['/', '/'] <+: '/' :: joinSlash comps) := by
    intro hp
    rcases List.cons_prefix_cons.mp hp with ⟨-, h2⟩
    exact joinSlash_not_slash_head comps h h2
  rw [if_neg (by tauto)]
  rw [if_pos (List.cons_prefix_cons.mpr ⟨rfl, List.nil_prefix⟩)]

theorem normParts_clean_append (slashes : Nat) (comps : List Str) (acc : List Str)
    (h : ∀ c ∈ comps, CleanComp c) :
    (comps.foldl
      (fun acc comp =>
        if comp = [] ∨ comp = str "." then acc
        else if comp ≠ str ".." ∨ (slashes = 0 ∧ acc = []) ∨ acc.getLast? = some (str "..") then
          acc ++ [comp]
        else if acc ≠ [] then acc.dropLast
        else acc)
      acc) = acc ++ comps := by
  induction comps generalizing acc with
  | nil => simp
  | cons c t ih =>
    obtain ⟨hne, -, hdot, hdd⟩ := h c (by simp)
    simp only [List.foldl_cons]
    rw [if_neg (by tauto), if_pos (Or.inl hdd)]
    rw [ih (acc ++ [c]) (fun x hx => h x (List.mem_cons_of_mem c hx))]
    simp

theorem normParts_clean (slashes : Nat) (comps : List Str)
    (h : ∀ c ∈ comps, CleanComp c) : normParts slashes comps = comps := by
  unfold normParts
  exact normParts_clean_append slashes comps [] h

theorem normParts_cons_nil (slashes : Nat) (rest : List Str) :
    normParts slashes ([] :: rest) = normParts slashes rest := by
  simp [normParts]

/-- A clean rendered absolute path is a fixed point of `normpath`. -/
theorem normpath_renderAbs (comps : List Str)
    (h : ∀ c ∈ comps, CleanComp c) : normpath (renderAbs comps) = renderAbs comps := by
  rcases comps with _ | ⟨c, t⟩
  · decide
  · unfold normpath
    rw [if_neg (by simp [renderAbs])]
    rw [initialSlashCount_renderAbs _ h]
    have hsplit : splitSlash (renderAbs (c :: t)) = [] :: c :: t := by
      unfold renderAbs
      have : splitSlash ('/' :: joinSlash (c :: t)) = [] :: splitSlash (joinSlash (c :: t)) := by
        simp [splitSlash]
      rw [this, splitSlash_joinSlash _ (by simp) (fun x hx => ((h x hx).2).1)]
    rw [hsplit]
    have : normParts 1 ([] :: c :: t) = c :: t := by
      rw [normParts_cons_nil]
      exact normParts_clean 1 (c :: t) h
    simp [this, renderAbs]

/-- A clean rendered absolute path is also a fixed point of the
`PurePosixPath` string conversion. -/
theorem purePosix_renderAbs (comps : List Str)
    (h : ∀ c ∈ comps, CleanComp c) : purePosix (renderAbs comps) = renderAbs comps := by
  rcases comps with _ | ⟨c, t⟩
  · decide
  · unfold purePosix
    have hsplit : splitSlash (renderAbs (c :: t)) = [] :: c :: t := by
      unfold renderAbs
      have : splitSlash ('/' :: joinSlash (c :: t)) = [] :: splitSlash (joinSlash (c :: t)) := by
        simp [splitSlash]
      rw [this, splitSlash_joinSlash _ (by simp) (fun x hx => ((h x hx).2).1)]
    rw [hsplit, initialSlashCount_renderAbs _ h]
    have hfilter : ((([] : Str) :: c :: t).filter (fun x => x ≠ [] ∧ x ≠ str ".")) = c :: t := by
      rw [List.filter_cons]
      simp only [decide_eq_true_eq]
      rw [if_neg (by simp)]
      rw [List.filter_eq_self.mpr]
      intro x hx
      obtain ⟨hne, -, hdot, -⟩ := h x hx
      simp [hne, hdot]
    rw [hfilter]
    rw [if_neg (by simp)]
    rfl

/-! Environment-variable machinery (`os.path.expandvars`, `os.path.expanduser`,
`PathUtils.expand`, `PathUtils.contract`). -/

/-- Process environment: ordered (name, value) pairs, as `os.environ`
iterates them.  `os.environ` is a dict, so theorems that need lookup
determinism assume the names are distinct. -/
abbrev Env := List (Str × Str)

/-- Dict lookup in the environment. -/
def envLookup (env : Env) (k : Str) : Option Str :=
  match env with
  | [] => none
  | (k', v) :: rest => if k' = k then some v else envLookup rest k

/-- Word character in the sense of the `re.ASCII` regex `\w` used by
`posixpath.expandvars`: ASCII letter, digit, or underscore. -/
def isWordChar (c : Char) : Bool := c.isAlphanum || c = '_'

/-- Longest `\w+` run at the head of a string, plus the remainder. -/
def wordRun : Str → Str × Str
  | [] => ([], [])
  | c :: cs =>
    if isWordChar c then
      let p := wordRun cs
      (c :: p.1, p.2)
    else ([], c :: cs)

theorem wordRun_snd_length (s : Str) : (wordRun s).2.length ≤ s.length := by
  induction s with
  | nil => simp [wordRun]
  | cons c cs ih =>
    by_cases h : isWordChar c
    · simp only [wordRun, if_pos h]
      exact le_trans ih (by simp)
    · simp [wordRun, if_neg h]

theorem wordRun_of_word (w : Str) (hw : ∀ c ∈ w, isWordChar c = true) (r : Str)
    (hr : ∀ c, r.head? = some c → isWordChar c = false) :
    wordRun (w ++ r) = (w, r) := by
  induction w with
  | nil =>
    rcases r with _ | ⟨c, cs⟩
    · rfl
    · have := hr c rfl
      simp [wordRun, this]
  | cons a as ih =>
    have ha := hw a (by simp)
    simp only [List.cons_append, wordRun, if_pos ha, List.append_eq,
      ih (fun c hc => hw c (List.mem_cons_of_mem a hc))]

/-- Scan for the closing `'}'` of a `${...}` placeholder: contents before it
and remainder after it. -/
def splitBrace : Str → Option (Str × Str)
  | [] => none
  | c :: cs =>
    if c = '}' then some ([], cs)
    else
      match splitBrace cs with
      | some (name, rest) => some (c :: name, rest)
      | none => none

theorem splitBrace_length {s : Str} {name rest : Str}
    (h : splitBrace s = some (name, rest)) : rest.length < s.length := by
  induction s generalizing name with
  | nil => simp [splitBrace] at h
  | cons c cs ih =>
    by_cases hc : c = '}'
    · simp only [splitBrace, if_pos hc] at h
      obtain ⟨-, h2⟩ := Prod.mk.injEq .. ▸ (Option.some.injEq .. ▸ h)
      subst h2; simp
    · simp only [splitBrace, if_neg hc] at h
      rcases hs : splitBrace cs with _ | ⟨n', r'⟩
      · rw [hs] at h; simp at h
      · rw [hs] at h
        simp only [Option.some.injEq, Prod.mk.injEq] at h
        obtain ⟨-, h2⟩ := h
        subst h2
        exact lt_trans (ih hs) (by simp)

/-- Model of `posixpath.expandvars`: substitute `$name` (maximal `\w+` run)
and `${name}` using the environment, leave unresolvable placeholders as
literal text, and never rescan substituted values. -/
def expandvars (env : Env) : Str → Str
  | [] => []
  | c :: cs =>
    if c = '$' then
      if cs.head? = some '{' then
        match hsb : splitBrace cs.tail with
        | some nr =>
          match envLookup env nr.1 with
          | some v => v ++ expandvars env nr.2
          | none => '$' :: '{' :: (nr.1 ++ '}' :: expandvars env nr.2)
        | none => '$' :: expandvars env cs
      else
        if hw : (wordRun cs).1 = [] then '$' :: expandvars env cs
        else
          match envLookup env (wordRun cs).1 with
          | some v => v ++ expandvars env (wordRun cs).2
          | none => '$' :: ((wordRun cs).1 ++ expandvars env (wordRun cs).2)
    else c :: expandvars env cs
termination_by s => s.length
decreasing_by
· have h1 := splitBrace_length hsb
  have h2 : rest.tail.length ≤ rest.length := by
    rcases rest with _ | ⟨x, xs⟩ <;> simp
  simp only [List.length_cons]
  omega
· simp
· simp
· have := wordRun_snd_length rest
  simp only [List.length_cons]
  omega
· simp

/-- Model of `posixpath.expanduser`.  `pwDir name` models the `pwd` database
(`getpwnam(name).pw_dir`; `pwDir []` stands for `getpwuid(os.getuid())`,
the current user); `none` models the `KeyError` on which the path is
returned unchanged. -/
def expanduser (env : Env) (pwDir : Str → Option Str) (path : Str) : Str :=
  if ¬ (['~'] <+: path) then path
  else
    let i := match (path.drop 1).findIdx? (· = '/') with
             | some j => j + 1
             | none => path.length
    let userhome : Option Str :=
      if i = 1 then
        match envLookup env (str "HOME") with
        | some h => some h
        | none => pwDir []
      else pwDir ((path.drop 1).take (i - 1))
    match userhome with
    | none => path
    | some uh =>
      let uh := (uh.reverse.dropWhile (· = '/')).reverse
      let res := uh ++ path.drop i
      if res = [] then str "/" else res

namespace PathUtils

/-- Model of `PathUtils.expand` (`core.py`): `os.path.expandvars`, then
`os.path.expanduser`, then wrap in `pathlib.Path` — rendered here as the
`PurePosixPath` string normalization. -/
def expand (env : Env) (pwDir : Str → Option Str) (path_str : Str) : Str :=
  if path_str = [] then purePosix []
  else purePosix (expanduser env pwDir (expandvars env path_str))

/-- Python `str.lstrip(os.sep)` for the POSIX separator. -/
def dropSlashes (s : Str) : Str := s.dropWhile (· = '/')

/-- Candidate environment variables of `PathUtils.contract`: value longer
than three characters and existing on disk (oracle `ex`), with the value
made absolute. -/
def envCandidates (ex : Str → Bool) (cwd : Str) (env : Env) : List (Str × Str) :=
  env.filterMap
    (fun kv => if kv.2.length > 3 ∧ ex kv.2 then some (kv.1, abspath cwd kv.2) else none)

/-- Stable insertion step for Python `sorted(..., key=len(value),
reverse=True)`: an element goes before the first strictly shorter value,
after all earlier elements of equal length. -/
def insertByLen (x : Str × Str) : List (Str × Str) → List (Str × Str)
  | [] => [x]
  | y :: ys => if y.2.length < x.2.length then x :: y :: ys else y :: insertByLen x ys

/-- Model of `sorted(env_vars.items(), key=lambda item: len(item[1]),
reverse=True)` — stable, descending by value length. -/
def sortByValLen (l : List (Str × Str)) : List (Str × Str) :=
  l.foldl (fun acc x => insertByLen x acc) []

/-- Candidate scan of `PathUtils.contract`: first sorted variable whose
value is a leading piece of the path at a separator boundary wins; a prefix
match that does not sit at a boundary is skipped and the scan continues. -/
def contractLoop (absPath : Str) : List (Str × Str) → Option Str
  | [] => none
  | (name, vpath) :: rest =>
    if vpath <+: absPath then
      let remaining := absPath.drop vpath.length
      if remaining = [] then some ('$' :: name)
      else if ['/'] <+: remaining then
        some (pjoin ('$' :: name) (dropSlashes remaining))
      else contractLoop absPath rest
    else contractLoop absPath rest

/-- Model of `PathUtils.contract` (`core.py`), POSIX branch
(`platform.system() != "Windows"`, `os.path.normcase` the identity): rewrite
the longest matching existing environment-variable value as a `$NAME`
placeholder, or return the absolute path unchanged. -/
def contract (env : Env) (ex : Str → Bool) (cwd : Str) (abs_path : Str) : Str :=
  if abs_path = [] then []
  else
    let absPath := abspath cwd abs_path
    match contractLoop absPath (sortByValLen (envCandidates ex cwd env)) with
    | some out => out
    | none => absPath

end PathUtils

/-! Lemmas about environment lookup, the candidate sort, and the contract
scan. -/

theorem envLookup_of_mem (env : Env) (k v : Str)
    (hmem : (k, v) ∈ env) (hnd : (env.map Prod.fst).Nodup) :
    envLookup env k = some v := by
  induction env with
  | nil => simp at hmem
  | cons kv rest ih =>
    rcases kv with ⟨k', v'⟩
    rcases List.mem_cons.mp hmem with heq | htail
    · obtain ⟨h1, h2⟩ := Prod.mk.injEq .. ▸ heq
      simp [envLookup, h1.symm, h2.symm]
    · have hk : k' ≠ k := by
        intro hkk
        subst hkk
        have : k' ∈ rest.map Prod.fst := List.mem_map.mpr ⟨(k', v), htail, rfl⟩
        simp only [List.map_cons, List.nodup_cons] at hnd
        exact hnd.1 this
      simp only [envLookup, if_neg hk]
      exact ih htail (by simp only [List.map_cons, List.nodup_cons] at hnd; exact hnd.2)

theorem mem_insertByLen (x y : Str × Str) (l : List (Str × Str)) :
    y ∈ PathUtils.insertByLen x l ↔ y = x ∨ y ∈ l := by
  induction l with
  | nil => simp [PathUtils.insertByLen]
  | cons z zs ih =>
    unfold PathUtils.insertByLen
    by_cases h : z.2.length < x.2.length
    · rw [if_pos h]
      simp [List.mem_cons]
    · rw [if_neg h]
      simp only [List.mem_cons, ih]
      tauto

theorem mem_sortByValLen (l : List (Str × Str)) (y : Str × Str) :
    y ∈ PathUtils.sortByValLen l ↔ y ∈ l := by
  unfold PathUtils.sortByValLen
  suffices h : ∀ acc, y ∈ l.foldl (fun acc x => PathUtils.insertByLen x acc) acc ↔
      y ∈ acc ∨ y ∈ l by
    rw [h []]; simp
  induction l with
  | nil => intro acc; simp
  | cons z zs ih =>
    intro acc
    simp only [List.foldl_cons, ih, mem_insertByLen, List.mem_cons]
    tauto

theorem mem_envCandidates (ex : Str → Bool) (cwd : Str) (env : Env) (k vp : Str) :
    (k, vp) ∈ PathUtils.envCandidates ex cwd env ↔
      ∃ v, (k, v) ∈ env ∧ v.length > 3 ∧ ex v = true ∧ vp = abspath cwd v := by
  unfold PathUtils.envCandidates
  rw [List.mem_filterMap]
  constructor
  · rintro ⟨⟨k', v'⟩, hmem, hif⟩
    by_cases h : v'.length > 3 ∧ ex v' = true
    · rw [if_pos h] at hif
      obtain ⟨h1, h2⟩ := Prod.mk.injEq .. ▸ (Option.some.injEq .. ▸ hif)
      exact ⟨v', h1 ▸ hmem, h.1, h.2, h2.symm⟩
    · rw [if_neg h] at hif; simp at hif
  · rintro ⟨v, hmem, h1, h2, h3⟩
    exact ⟨(k, v), hmem, by rw [if_pos ⟨h1, h2⟩, h3]⟩

theorem contractLoop_some (ap : Str) (l : List (Str × Str)) (out : Str)
    (h : PathUtils.contractLoop ap l = some out) :
    ∃ name vpath, (name, vpath) ∈ l ∧ vpath <+: ap ∧
      ((ap.drop vpath.length = [] ∧ out = '$' :: name) ∨
       (['/'] <+: ap.drop vpath.length ∧
        out = pjoin ('$' :: name) (PathUtils.dropSlashes (ap.drop vpath.length)))) := by
  induction l with
  | nil => simp [PathUtils.contractLoop] at h
  | cons kv rest ih =>
    rcases kv with ⟨name, vpath⟩
    by_cases hpre : vpath <+: ap
    · by_cases hemp : ap.drop vpath.length = []
      · simp only [PathUtils.contractLoop, if_pos hpre, if_pos hemp,
          Option.some.injEq] at h
        exact ⟨name, vpath, by simp, hpre, Or.inl ⟨hemp, h.symm⟩⟩
      · by_cases hsl : ['/'] <+: ap.drop vpath.length
        · simp only [PathUtils.contractLoop, if_pos hpre, if_neg hemp, if_pos hsl,
            Option.some.injEq] at h
          exact ⟨name, vpath, by simp, hpre, Or.inr ⟨hsl, h.symm⟩⟩
        · simp only [PathUtils.contractLoop, if_pos hpre, if_neg hemp, if_neg hsl] at h
          obtain ⟨n, v, hm, rest'⟩ := ih h
          exact ⟨n, v, List.mem_cons_of_mem _ hm, rest'⟩
    · simp only [PathUtils.contractLoop, if_neg hpre] at h
      obtain ⟨n, v, hm, rest'⟩ := ih h
      exact ⟨n, v, List.mem_cons_of_mem _ hm, rest'⟩

theorem contractLoop_isSome (ap : Str) (l : List (Str × Str)) (name vpath : Str)
    (hmem : (name, vpath) ∈ l) (hpre : vpath <+: ap)
    (hbound : ap.drop vpath.length = [] ∨ ['/'] <+: ap.drop vpath.length) :
    (PathUtils.contractLoop ap l).isSome := by
  induction l with
  | nil => simp at hmem
  | cons kv rest ih =>
    rcases kv with ⟨n', v'⟩
    rcases List.mem_cons.mp hmem with heq | htail
    · obtain ⟨h1, h2⟩ := Prod.mk.injEq .. ▸ heq
      subst h1; subst h2
      by_cases hemp : ap.drop vpath.length = []
      · simp [PathUtils.contractLoop, if_pos hpre, hemp]
      · have hsl : ['/'] <+: ap.drop vpath.length := hbound.resolve_left hemp
        simp [PathUtils.contractLoop, if_pos hpre, hemp, hsl]
    · by_cases hpre' : v' <+: ap
      · by_cases hemp' : ap.drop v'.length = []
        · simp [PathUtils.contractLoop, if_pos hpre', hemp']
        · by_cases hsl' : ['/'] <+: ap.drop v'.length
          · simp [PathUtils.contractLoop, if_pos hpre', hemp', hsl']
          · simp only [PathUtils.contractLoop, if_pos hpre', if_neg hemp', if_neg hsl']
            exact ih htail
      · simp only [PathUtils.contractLoop, if_neg hpre']
        exact ih htail

/-! Structural facts about slash-joined component lists. -/

theorem slash_append_inj (a b x y : Str) (ha : '/' ∉ a) (hb : '/' ∉ b)
    (h : a ++ '/' :: x = b ++ '/' :: y) : a = b ∧ x = y := by
  induction a generalizing b with
  | nil =>
    rcases b with _ | ⟨d, bs⟩
    · simpa using h
    · simp only [List.nil_append, List.cons_append, List.cons.injEq] at h
      exact absurd (h.1 ▸ List.mem_cons_self d bs : '/' ∈ d :: bs) hb
  | cons c as ih =>
    rcases b with _ | ⟨d, bs⟩
    · simp only [List.cons_append, List.nil_append, List.cons.injEq] at h
      exact absurd (h.1.symm ▸ List.mem_cons_self c as : '/' ∈ c :: as) ha
    · simp only [List.cons_append, List.cons.injEq] at h
      obtain ⟨hcd, hrest⟩ := h
      obtain ⟨h1, h2⟩ := ih bs (fun hm => ha (List.mem_cons_of_mem c hm))
        (fun hm => hb (List.mem_cons_of_mem d hm)) hrest
      exact ⟨by rw [hcd, h1], h2⟩

theorem mem_joinSlash_char (l : List Str) (c : Char) (h : c ∈ joinSlash l) :
    c = '/' ∨ ∃ x ∈ l, c ∈ x := by
  induction l with
  | nil => simp [joinSlash, List.intercalate] at h
  | cons a t ih =>
    rcases t with _ | ⟨b, t'⟩
    · rw [joinSlash_single] at h
      exact Or.inr ⟨a, by simp, h⟩
    · rw [joinSlash_cons a _ (by simp)] at h
      rcases List.mem_append.mp h with hmem | hmem
      · exact Or.inr ⟨a, by simp, hmem⟩
      · rcases List.mem_cons.mp hmem with hc | hc
        · exact Or.inl hc
        · rcases ih hc with h1 | ⟨x, hx, hcx⟩
          · exact Or.inl h1
          · exact Or.inr ⟨x, List.mem_cons_of_mem a hx, hcx⟩

theorem joinSlash_append (a b : List Str) (ha : a ≠ []) (hb : b ≠ []) :
    joinSlash (a ++ b) = joinSlash a ++ '/' :: joinSlash b := by
  induction a with
  | nil => exact absurd rfl ha
  | cons c t ih =>
    rcases t with _ | ⟨d, t'⟩
    · rw [joinSlash_single]
      simp only [List.singleton_append]
      rw [joinSlash_cons c b hb]
    · have h1 : ((c :: d :: t') ++ b) = c :: ((d :: t') ++ b) := rfl
      rw [h1, joinSlash_cons c ((d :: t') ++ b) (by simp), ih (by simp),
        joinSlash_cons c (d :: t') (by simp)]
      simp

/-- The alignment lemma: if a slash-join of clean components extends another
slash-join at a separator boundary, the component lists themselves are in
the sublist relation. -/
theorem joinSlash_boundary (pcomps vcs : List Str) (rest : Str)
    (hp : ∀ c ∈ pcomps, c ≠ [] ∧ '/' ∉ c) (hv : ∀ c ∈ vcs, c ≠ [] ∧ '/' ∉ c)
    (heq : joinSlash pcomps = joinSlash vcs ++ '/' :: rest) :
    ∃ extra, pcomps = vcs ++ extra ∧ extra ≠ [] ∧ rest = joinSlash extra := by
  induction vcs generalizing pcomps with
  | nil =>
    rcases pcomps with _ | ⟨p, pt⟩
    · simp [joinSlash, List.intercalate] at heq
    · obtain ⟨hpne, hps⟩ := hp p (by simp)
      rcases p with _ | ⟨a, as⟩
      · exact absurd rfl hpne
      · have ha : a ≠ '/' := fun hh => hps (by simp [hh])
        exfalso
        rcases pt with _ | ⟨q, qt⟩
        · rw [joinSlash_single] at heq
          simp only [joinSlash_nil, List.nil_append, List.cons.injEq] at heq
          exact ha heq.1
        · rw [joinSlash_cons _ _ (by simp)] at heq
          simp only [joinSlash_nil, List.nil_append, List.cons_append,
            List.cons.injEq] at heq
          exact ha heq.1
  | cons v vt ih =>
    rcases pcomps with _ | ⟨p, pt⟩
    · exfalso
      rw [joinSlash_nil] at heq
      exact absurd heq.symm (by simp)
    · obtain ⟨hpne, hps⟩ := hp p (by simp)
      obtain ⟨hvne, hvs⟩ := hv v (by simp)
      rcases vt with _ | ⟨w, wt⟩
      · rw [joinSlash_single] at heq
        rcases pt with _ | ⟨q, qt⟩
        · exfalso
          rw [joinSlash_single] at heq
          exact hps (heq ▸ (List.mem_append.mpr (Or.inr (by simp))))
        · rw [joinSlash_cons p _ (by simp)] at heq
          obtain ⟨h1, h2⟩ := slash_append_inj p v _ _ hps hvs heq
          exact ⟨q :: qt, by rw [h1]; rfl, by simp, h2.symm⟩
      · rw [joinSlash_cons v (w :: wt) (by simp)] at heq
        rcases pt with _ | ⟨q, qt⟩
        · exfalso
          rw [joinSlash_single] at heq
          rw [List.append_assoc] at heq
          exact hps (heq ▸ (List.mem_append.mpr (Or.inr (by simp))))
        · rw [joinSlash_cons p (q :: qt) (by simp)] at heq
          rw [List.append_assoc] at heq
          obtain ⟨h1, h2⟩ := slash_append_inj p v _ _ hps hvs heq
          obtain ⟨extra, he1, he2, he3⟩ := ih (q :: qt)
            (fun c hc => hp c (List.mem_cons_of_mem p hc)) 
            (fun c hc => hv c (List.mem_cons_of_mem v hc)) h2
          exact ⟨extra, by rw [h1, he1]; rfl, he2, he3⟩

/-! Computation rules for `expandvars`. -/

theorem expandvars_nil (env : Env) : expandvars env [] = [] := by
  rw [expandvars]

theorem expandvars_not_dollar (env : Env) (c : Char) (hc : c ≠ '$') (r : Str) :
    expandvars env (c :: r) = c :: expandvars env r := by
  rw [expandvars, if_neg hc]

theorem expandvars_no_dollar (env : Env) (s : Str) (h : '$' ∉ s) :
    expandvars env s = s := by
  induction s with
  | nil => exact expandvars_nil env
  | cons c cs ih =>
    have hc : c ≠ '$' := fun hh => h (by simp [hh])
    rw [expandvars_not_dollar env c hc, ih (fun hm => h (List.mem_cons_of_mem c hm))]

theorem isWordChar_no_special (c : Char) (h : isWordChar c = true) :
    c ≠ '/' ∧ c ≠ '{' ∧ c ≠ '$' ∧ c ≠ '~' := by
  refine ⟨?_, ?_, ?_, ?_⟩ <;> intro hc <;> subst hc <;> revert h <;> decide

/-- Substitution rule used by the roundtrip proof: a defined `$name`
placeholder followed by a non-word boundary expands to the value, scanning
continuing after the placeholder. -/
theorem expandvars_dollar_word (env : Env) (k r v : Str)
    (hk : k ≠ []) (hkw : ∀ c ∈ k, isWordChar c = true)
    (hr : ∀ c, r.head? = some c → isWordChar c = false)
    (hl : envLookup env k = some v) :
    expandvars env ('$' :: (k ++ r)) = v ++ expandvars env r := by
  have hwr : wordRun (k ++ r) = (k, r) := wordRun_of_word k hkw r hr
  rcases k with _ | ⟨a, as⟩
  · exact absurd rfl hk
  · have ha : a ≠ '{' := (isWordChar_no_special a (hkw a (by simp))).2.1
    rw [expandvars, if_pos rfl, if_neg (by simp [ha]),
      dif_neg (by rw [hwr]; simp)]
    simp only [hwr, hl]

/-! Helper facts for the roundtrip theorem. -/

theorem isAbs_renderAbs (comps : List Str) : isAbs (renderAbs comps) = true := by
  simp [isAbs, renderAbs, List.cons_prefix_cons]

theorem abspath_renderAbs (cwd : Str) (comps : List Str)
    (h : ∀ c ∈ comps, CleanComp c) : abspath cwd (renderAbs comps) = renderAbs comps := by
  rw [abspath, if_pos (isAbs_renderAbs comps)]
  exact normpath_renderAbs comps h

theorem expanduser_not_tilde (env : Env) (pwDir : Str → Option Str) (path : Str)
    (h : path.head? ≠ some '~') : expanduser env pwDir path = path := by
  rw [expanduser, if_pos]
  intro hp
  rcases path with _ | ⟨c, cs⟩
  · exact absurd hp (by simp)
  · rcases List.cons_prefix_cons.mp hp with ⟨h1, -⟩
    exact h (by rw [← h1]; rfl)

/-- Amended claim C7, main direction: under a well-formed environment
(word-character names, distinct, normalized absolute existing values) and a
normalized absolute `'$'`-free path lying under some qualifying variable
value, contraction followed by expansion reproduces the (already
normalized) path.  The path and the environment values are presented by
their slash-free component lists. -/
theorem c7_expand_contract_roundtrip
    (env : Env) (ex : Str → Bool) (cwd : Str) (pwDir : Str → Option Str)
    (pcomps : List Str)
    (hnd : (env.map Prod.fst).Nodup)
    (hkeys : ∀ kv ∈ env, kv.1 ≠ [] ∧ ∀ c ∈ kv.1, isWordChar c = true)
    (hvals : ∀ kv ∈ env, ∃ vcs, kv.2 = renderAbs vcs ∧ ∀ c ∈ vcs, CleanComp c)
    (hp : ∀ c ∈ pcomps, CleanComp c) (hpd : ∀ c ∈ pcomps, '$' ∉ c)
    (hunder : ∃ k vcs extra, (k, renderAbs vcs) ∈ env ∧
        (renderAbs vcs).length > 3 ∧ ex (renderAbs vcs) = true ∧
        pcomps = vcs ++ extra) :
    PathUtils.expand env pwDir (PathUtils.contract env ex cwd (renderAbs pcomps)) =
      normpath (renderAbs pcomps) := by
  have hnp : normpath (renderAbs pcomps) = renderAbs pcomps := normpath_renderAbs _ hp
  have hpne : renderAbs pcomps ≠ [] := by simp [renderAbs]
  have habs : abspath cwd (renderAbs pcomps) = renderAbs pcomps := abspath_renderAbs cwd _ hp
  obtain ⟨k, vcs, extra, hmemk, hlen, hexv, hsplit⟩ := hunder
  have hvclean : ∀ c ∈ vcs, CleanComp c := fun c hc =>
    hp c (hsplit ▸ List.mem_append.mpr (Or.inl hc))
  have habsv : abspath cwd (renderAbs vcs) = renderAbs vcs := abspath_renderAbs cwd _ hvclean
  have hmemc : (k, renderAbs vcs) ∈ PathUtils.envCandidates ex cwd env :=
    (mem_envCandidates ex cwd env k (renderAbs vcs)).mpr
      ⟨renderAbs vcs, hmemk, hlen, hexv, habsv.symm⟩
  have hmems := (mem_sortByValLen (PathUtils.envCandidates ex cwd env) _).mpr hmemc
  have hvne : vcs ≠ [] := by
    intro h0
    subst h0
    simp [renderAbs, joinSlash_nil] at hlen
  have hb : (renderAbs vcs <+: renderAbs pcomps) ∧
      ((renderAbs pcomps).drop (renderAbs vcs).length = [] ∨
       ['/'] <+: (renderAbs pcomps).drop (renderAbs vcs).length) := by
    rcases hextra : extra with _ | ⟨e, et⟩
    · subst hextra
      rw [List.append_nil] at hsplit
      subst hsplit
      exact ⟨List.prefix_refl _, Or.inl (List.drop_length _)⟩
    · subst hextra
      have hra : renderAbs pcomps = renderAbs vcs ++ '/' :: joinSlash (e :: et) := by
        rw [hsplit]
        unfold renderAbs
        rw [joinSlash_append vcs (e :: et) hvne (by simp)]
        rfl
      constructor
      · rw [hra]; exact List.prefix_append _ _
      · rw [hra, List.drop_left]
        exact Or.inr (List.cons_prefix_cons.mpr ⟨rfl, List.nil_prefix⟩)
  have hsome := contractLoop_isSome (renderAbs pcomps) _ k (renderAbs vcs) hmems hb.1 hb.2
  rcases hres : PathUtils.contractLoop (renderAbs pcomps)
      (PathUtils.sortByValLen (PathUtils.envCandidates ex cwd env)) with _ | out
  · rw [hres] at hsome; simp at hsome
  · have hcon : PathUtils.contract env ex cwd (renderAbs pcomps) = out := by
      simp only [PathUtils.contract, if_neg hpne, habs, hres]
    rw [hnp, hcon]
    obtain ⟨name, vpath, hmem', hpre', hcases⟩ := contractLoop_some _ _ _ hres
    obtain ⟨v0, hmem0, hlen0, hex0, hvp⟩ :=
      (mem_envCandidates ex cwd env name vpath).mp
        ((mem_sortByValLen (PathUtils.envCandidates ex cwd env) _).mp hmem')
    obtain ⟨wcs, hv0eq, hwclean⟩ := hvals (name, v0) hmem0
    have hvpath : vpath = renderAbs wcs := by
      rw [hvp]
      simp only at hv0eq
      rw [hv0eq]
      exact abspath_renderAbs cwd wcs hwclean
    obtain ⟨hkne, hkw⟩ := hkeys (name, v0) hmem0
    simp only at hkne hkw hv0eq
    have hlook : envLookup env name = some v0 := envLookup_of_mem env name v0 hmem0 hnd
    obtain ⟨t, ht⟩ := hpre'
    have hdropt : (renderAbs pcomps).drop vpath.length = t := by
      rw [← ht, List.drop_left]
    rcases hcases with ⟨hdrop, hout⟩ | ⟨hsl, hout⟩
    · -- exact match: out = "$name", path equals the variable's value
      have ht0 : t = [] := by rw [← hdropt]; exact hdrop
      have hap : vpath = renderAbs pcomps := by rw [← ht, ht0, List.append_nil]
      subst hout
      simp only [PathUtils.expand, if_neg (by simp : ¬('$' :: name = []))]
      have he : expandvars env ('$' :: name) = v0 := by
        have hh := expandvars_dollar_word env name [] v0 hkne hkw
          (by intro c hc; simp at hc) hlook
        rw [List.append_nil] at hh
        rw [hh, expandvars_nil, List.append_nil]
      rw [he]
      have hv0head : v0.head? ≠ some '~' := by
        rw [hv0eq]; simp [renderAbs]
      rw [expanduser_not_tilde env pwDir v0 hv0head]
      rw [hv0eq, purePosix_renderAbs wcs hwclean, ← hv0eq]
      rw [hv0eq, ← hvpath, hap]
    · -- boundary match: out = "$name/<remainder>"
      rw [hdropt] at hsl
      obtain ⟨rest0, hrest0⟩ : ∃ r0, t = '/' :: r0 := by
        rcases t with _ | ⟨x, xs⟩
        · rcases hsl with ⟨u, hu⟩
          exact absurd hu (by simp)
        · rcases List.cons_prefix_cons.mp hsl with ⟨h1, -⟩
          exact ⟨xs, by rw [← h1]⟩
      subst hrest0
      have heq : joinSlash pcomps = joinSlash wcs ++ '/' :: rest0 := by
        have h2 : renderAbs pcomps = renderAbs wcs ++ '/' :: rest0 := by
          rw [← ht, hvpath]
        unfold renderAbs at h2
        simp only [List.cons_append, List.cons.injEq] at h2
        exact h2.2
      obtain ⟨extra2, hsplit2, hex2ne, hrest0eq⟩ := joinSlash_boundary pcomps wcs rest0
        (fun c hc => ⟨(hp c hc).1, (hp c hc).2.1⟩)
        (fun c hc => ⟨(hwclean c hc).1, (hwclean c hc).2.1⟩) heq
      rcases hex2 : extra2 with _ | ⟨e, et⟩
      · exact absurd hex2 hex2ne
      · subst hex2
        have hemem : e ∈ pcomps := hsplit2 ▸ List.mem_append.mpr (Or.inr (by simp))
        obtain ⟨hene, hes, -, -⟩ := hp e hemem
        rcases he' : e with _ | ⟨a, as⟩
        · exact absurd he' hene
        · subst he'
          have ha : a ≠ '/' := fun hh => hes (by simp [hh])
          obtain ⟨tl, htl⟩ : ∃ tl, rest0 = a :: tl := by
            rw [hrest0eq]
            rcases et with _ | ⟨w, wt⟩
            · rw [joinSlash_single]; exact ⟨as, rfl⟩
            · rw [joinSlash_cons _ _ (by simp)]
              exact ⟨as ++ '/' :: joinSlash (w :: wt), rfl⟩
          have hds : PathUtils.dropSlashes ('/' :: rest0) = rest0 := by
            rw [PathUtils.dropSlashes, List.dropWhile_cons]
            rw [if_pos (by simp), htl, List.dropWhile_cons, if_neg (by simp [ha])]
          have hlast : ('$' :: name).getLast? ≠ some '/' := by
            rcases name with _ | ⟨b, bs⟩
            · exact absurd rfl hkne
            · rw [List.getLast?_cons_cons]
              intro hcon'
              have hmem'' : '/' ∈ (b :: bs : Str) := List.mem_of_mem_getLast? hcon'
              exact (isWordChar_no_special '/' (hkw '/' hmem'')).1 rfl
          have hpj : pjoin ('$' :: name) rest0 = '$' :: (name ++ '/' :: rest0) := by
            rw [pjoin, if_neg, if_neg]
            · rfl
            · rintro (h0 | h0)
              · exact absurd h0 (by simp)
              · exact hlast h0
            · rw [htl]
              simp only [isAbs, decide_eq_true_eq]
              intro hcon'
              rcases List.cons_prefix_cons.mp hcon' with ⟨h1, -⟩
              exact ha h1.symm
          rw [hout, hdropt, hds, hpj]
          have hnodollar : '$' ∉ ('/' :: rest0 : Str) := by
            intro hm
            rcases List.mem_cons.mp hm with h0 | h0
            · exact absurd h0 (by decide)
            · rw [hrest0eq] at h0
              rcases mem_joinSlash_char _ _ h0 with h1 | ⟨x, hx, hcx⟩
              · exact absurd h1 (by decide)
              · exact hpd x (hsplit2 ▸ List.mem_append.mpr (Or.inr hx)) hcx
          have hev : expandvars env ('$' :: (name ++ '/' :: rest0)) =
              v0 ++ '/' :: rest0 := by
            rw [expandvars_dollar_word env name ('/' :: rest0) v0 hkne hkw
              (by intro c hc; simp at hc; rw [← hc]; decide) hlook]
            rw [expandvars_no_dollar env ('/' :: rest0) hnodollar]
          have hfull : v0 ++ '/' :: rest0 = renderAbs pcomps := by
            rw [hv0eq, ← hvpath, ht]
          simp only [PathUtils.expand, if_neg (by simp : ¬('$' :: (name ++ '/' :: rest0) = []))]
          rw [hev, hfull]
          rw [expanduser_not_tilde env pwDir _ (by simp [renderAbs])]
          exact purePosix_renderAbs pcomps hp

theorem expandvars_dollar_word_none (env : Env) (k r : Str)
    (hk : k ≠ []) (hkw : ∀ c ∈ k, isWordChar c = true)
    (hr : ∀ c, r.head? = some c → isWordChar c = false)
    (hl : envLookup env k = none) :
    expandvars env ('$' :: (k ++ r)) = '$' :: (k ++ expandvars env r) := by
  have hwr := wordRun_of_word k hkw r hr
  rcases k with _ | ⟨a, as⟩
  · exact absurd rfl hk
  · have ha : a ≠ '{' := (isWordChar_no_special a (hkw a (by simp))).2.1
    rw [expandvars, if_pos rfl, if_neg (by simp [ha]),
      dif_neg (by rw [hwr]; simp)]
    simp only [hwr, hl]

/-- Witness for the amended claim C7: environment `HOME=/data/save`
(existing on disk), path `/data/save/f`; the contraction/expansion
roundtrip reproduces the normalized path. -/
theorem c7_expand_contract_roundtrip_witness :
    PathUtils.expand [(str "HOME", str "/data/save")] (fun _ => none)
      (PathUtils.contract [(str "HOME", str "/data/save")]
        (fun s => decide (s = str "/data/save")) (str "/")
        (renderAbs [str "data", str "save", str "f"])) =
      normpath (renderAbs [str "data", str "save", str "f"]) := by
  refine c7_expand_contract_roundtrip [(str "HOME", str "/data/save")]
    (fun s => decide (s = str "/data/save")) (str "/") (fun _ => none)
    [str "data", str "save", str "f"] (by decide) ?_ ?_ (by decide) (by decide) ?_
  · intro kv hkv
    rcases List.mem_singleton.mp hkv with rfl
    exact ⟨by decide, by decide⟩
  · intro kv hkv
    rcases List.mem_singleton.mp hkv with rfl
    exact ⟨[str "data", str "save"], by decide, by decide⟩
  · exact ⟨str "HOME", [str "data", str "save"], [str "f"], by decide, by decide,
      by decide, by decide⟩

/-- Counterexample to claim C7 as stated: the environment variable `A-B`
has a value of length at least four that exists on disk, and
`/data/save/f` lies under that value, yet `expand (contract p)` yields the
literal `$A-B/f` (the `-` is not a word character, so `expandvars` cannot
re-expand the placeholder that `contract` produced), which differs from
the normalized path. -/
theorem c7_expand_contract_counterexample :
    (str "/data/save").length ≥ 4 ∧
    (fun s => decide (s = str "/data/save")) (str "/data/save") = true ∧
    str "/data/save" ++ '/' :: str "f" = str "/data/save/f" ∧
    PathUtils.contract [(str "A-B", str "/data/save")]
      (fun s => decide (s = str "/data/save")) (str "/") (str "/data/save/f") =
        str "$A-B/f" ∧
    PathUtils.expand [(str "A-B", str "/data/save")] (fun _ => none)
      (str "$A-B/f") = str "$A-B/f" ∧
    normpath (str "/data/save/f") = str "/data/save/f" ∧
    str "$A-B/f" ≠ str "/data/save/f" := by
  refine ⟨by decide, by decide, by decide, by decide, ?_, by decide, by decide⟩
  have h1 : expandvars [(str "A-B", str "/data/save")] (str "$A-B/f") =
      str "$A-B/f" := by
    have h0 : (str "$A-B/f" : Str) = '$' :: (str "A" ++ str "-B/f") := by decide
    rw [h0, expandvars_dollar_word_none _ (str "A") (str "-B/f") (by decide)
      (by decide)
      (by
        intro c hc
        have h2 : (str "-B/f").head? = some '-' := by decide
        rw [h2, Option.some.injEq] at hc
        rw [← hc]
        decide)
      (by decide)]
    rw [expandvars_no_dollar _ _ (by decide)]
  simp only [PathUtils.expand]
  rw [if_neg (by decide), h1]
  decide

/-! Profile and configuration persistence (`GameProfile`, `ConfigManager`). -/

/-- Model of the dataclass `GameProfile` (`core.py`).  `__post_init__`
replaces a `None` `file_patterns` by `["*"]` and a `None` icon by `""`;
the model's fields carry the already-defaulted values. -/
structure GameProfile where
  id : Str := []
  name : Str := []
  save_path : Str := []
  file_patterns : List Str := [str "*"]
  use_compression : Bool := true
  clear_folder_on_restore : Bool := true
  plugin_id : Str := []
  icon : Str := []
deriving DecidableEq

/-- Serialized profile record as produced by `GameProfile.to_dict`:
`asdict` minus the `file_patterns` key (popped before writing). -/
structure ProfileDict where
  id : Str
  name : Str
  save_path : Str
  use_compression : Bool
  clear_folder_on_restore : Bool
  plugin_id : Str
  icon : Str
deriving DecidableEq

def GameProfile.to_dict (p : GameProfile) : ProfileDict :=
  { id := p.id, name := p.name, save_path := p.save_path,
    use_compression := p.use_compression,
    clear_folder_on_restore := p.clear_folder_on_restore,
    plugin_id := p.plugin_id, icon := p.icon }

/-- Placeholder marker characters recognized by `GameProfile.from_dict`. -/
def isMark (c : Char) : Bool := c = '%' || c = '$'

/-- Model of `GameProfile.from_dict` (`core.py`): strip everything before
the first `%` or `$` from the stored save path (`idx = min(find("%"),
find("$"))`; `raw_path[idx:]`), then contract a path that does not already
start with a placeholder. -/
def GameProfile.from_dict (env : Env) (ex : Str → Bool) (cwd : Str)
    (data : ProfileDict) : GameProfile :=
  let raw0 := data.save_path
  let raw_path :=
    if '%' ∈ raw0 ∨ '$' ∈ raw0 then raw0.drop (raw0.findIdx isMark) else raw0
  let save_path :=
    if raw_path ≠ [] ∧ ¬(raw_path.head? = some '%' ∨ raw_path.head? = some '$') then
      PathUtils.contract env ex cwd raw_path
    else raw_path
  { id := data.id, name := data.name, save_path := save_path,
    use_compression := data.use_compression,
    clear_folder_on_restore := data.clear_folder_on_restore,
    plugin_id := data.plugin_id, icon := data.icon }

/-- Persisted configuration document: the JSON object that `save_config`
writes (and `load_config` reads back). -/
structure ConfigFileData where
  games : List ProfileDict
  theme : Str
  window_geometry : Option Str
  table_widths : List Int
  backup_location_mode : Str
  backup_fixed_path : Str
  last_updated : Str
deriving DecidableEq

/-- File content as the configuration code observes it: `none` models
content on which `json.load` raises `JSONDecodeError`, `some cfg` a
parseable configuration document. -/
abbrev FileData := Option ConfigFileData

/-- A directory as an association of file names to contents. -/
abbrev Disk := List (Str × FileData)

def getFile (d : Disk) (n : Str) : Option FileData :=
  match d with
  | [] => none
  | (m, w) :: rest => if m = n then some w else getFile rest n

def setFile (d : Disk) (n : Str) (v : FileData) : Disk :=
  match d with
  | [] => [(n, v)]
  | (m, w) :: rest => if m = n then (n, v) :: rest else (m, w) :: setFile rest n v

def removeFile (d : Disk) (n : Str) : Disk :=
  match d with
  | [] => []
  | (m, w) :: rest => if m = n then rest else (m, w) :: removeFile rest n

/-- Model of `pathlib.PurePath.with_suffix` on a bare file name: replace
the suffix (the piece from the final dot, when that dot is neither the
first nor past the last character) by the new one, else append. -/
def withSuffix (name : Str) (sfx : Str) : Str :=
  match name.reverse.findIdx? (fun c => c = '.') with
  | none => name ++ sfx
  | some j =>
    let i := name.length - 1 - j
    if 0 < i ∧ i < name.length - 1 then name.take i ++ sfx else name ++ sfx

/-- In-memory state of `ConfigManager` together with the disk holding its
configuration file.  `games` keeps the profiles in dict insertion order,
keyed by `id`. -/
structure ConfigManager where
  games : List GameProfile
  theme : Str
  window_geometry : Option Str
  table_widths : List Int
  backup_location_mode : Str
  backup_fixed_path : Str
  disk : Disk
deriving DecidableEq

namespace ConfigManager

/-- The configuration file name (`app_dir / "gsm_config.json"`). -/
def configPath : Str := str "gsm_config.json"

/-- The temporary file used by `save_config`
(`config_path.with_suffix(".tmp")`). -/
def tmpPath : Str := withSuffix configPath (str ".tmp")

/-- Python dict assignment `self.games[profile.id] = profile`: replace in
place if the id exists, append otherwise. -/
def upsertGame : List GameProfile → GameProfile → List GameProfile
  | [], p => [p]
  | q :: qs, p => if q.id = p.id then p :: qs else q :: upsertGame qs p

/-- Model of `ConfigManager.load_config`: a missing file is left alone; a
file that fails JSON parsing is renamed aside to the `.json.corrupted`
name and the store emptied (the caught `JSONDecodeError` branch); a
parseable document repopulates the fields, rebuilding the games dict with
`from_dict`. -/
def load_config (env : Env) (ex : Str → Bool) (cwd : Str)
    (st : ConfigManager) : ConfigManager :=
  match getFile st.disk configPath with
  | none => st
  | some none =>
    { st with
      games := [],
      disk := setFile (removeFile st.disk configPath)
        (withSuffix configPath (str ".json.corrupted")) none }
  | some (some data) =>
    { st with
      games := data.games.foldl
        (fun acc d => upsertGame acc (GameProfile.from_dict env ex cwd d)) [],
      theme := data.theme,
      window_geometry :=
        match data.window_geometry with
        | some s => if s ≠ [] then some s else none
        | none => none,
      table_widths := data.table_widths,
      backup_location_mode := data.backup_location_mode,
      backup_fixed_path := data.backup_fixed_path }

/-- The document `save_config` serializes (`to_dict` per game, plus the
settings fields and the informational timestamp). -/
def serialize (st : ConfigManager) (now : Str) : ConfigFileData :=
  { games := st.games.map GameProfile.to_dict, theme := st.theme,
    window_geometry := st.window_geometry, table_widths := st.table_widths,
    backup_location_mode := st.backup_location_mode,
    backup_fixed_path := st.backup_fixed_path, last_updated := now }

/-- Model of `ConfigManager.save_config` with failure injection: `openOk`
models `open(tmp_path, "w")` succeeding, `writeOk` the `json.dump` and
flush completing (false leaves a partial, unparseable temporary file), and
`replaceOk` the atomic `tmp_path.replace(config_path)`.  A failed `fsync`
is swallowed by the inner handler and does not change the outcome.  Every
exception is caught by the surrounding handler: the function is total and
merely reports success in its second component (false = the logged
`Config save failed` path). -/
def save_config (st : ConfigManager) (now : Str)
    (openOk writeOk replaceOk : Bool) : ConfigManager × Bool :=
  let data := serialize st now
  if openOk then
    if writeOk then
      let d1 := setFile st.disk tmpPath (some data)
      if replaceOk then
        ({ st with disk := setFile (removeFile d1 tmpPath) configPath (some data) }, true)
      else ({ st with disk := d1 }, false)
    else ({ st with disk := setFile st.disk tmpPath none }, false)
  else (st, false)

end ConfigManager

/-! Disk association lemmas. -/

theorem getFile_setFile_self (d : Disk) (n : Str) (v : FileData) :
    getFile (setFile d n v) n = some v := by
  induction d with
  | nil => simp [setFile, getFile]
  | cons kv rest ih =>
    rcases kv with ⟨m, w⟩
    by_cases h : m = n
    · simp [setFile, getFile, h]
    · simp [setFile, getFile, h, ih]

theorem getFile_setFile_ne (d : Disk) (n m : Str) (v : FileData) (h : n ≠ m) :
    getFile (setFile d n v) m = getFile d m := by
  induction d with
  | nil => simp [setFile, getFile, h]
  | cons kv rest ih =>
    rcases kv with ⟨m', w⟩
    by_cases h' : m' = n
    · subst h'
      simp [setFile, getFile, h]
    · by_cases h'' : m' = m
      · simp [setFile, getFile, h', h'', Ne.symm h]
      · simp [setFile, getFile, h', h'', ih]

theorem getFile_removeFile_ne (d : Disk) (n m : Str) (h : n ≠ m) :
    getFile (removeFile d n) m = getFile d m := by
  induction d with
  | nil => simp [removeFile]
  | cons kv rest ih =>
    rcases kv with ⟨m', w⟩
    by_cases h' : m' = n
    · subst h'
      simp [removeFile, getFile, h]
    · by_cases h'' : m' = m
      · simp [removeFile, getFile, h', h'', Ne.symm h]
      · simp [removeFile, getFile, h', h'', ih]

theorem getFile_eq_none_of_not_mem (d : Disk) (n : Str)
    (h : n ∉ d.map Prod.fst) : getFile d n = none := by
  induction d with
  | nil => rfl
  | cons kv rest ih =>
    rcases kv with ⟨m, w⟩
    have hm : m ≠ n := fun h0 => h (by simp [h0])
    simp only [getFile]
    rw [if_neg hm]
    exact ih (fun hmem => h (List.mem_cons_of_mem m hmem))

theorem getFile_removeFile_self (d : Disk) (n : Str)
    (hnd : (d.map Prod.fst).Nodup) : getFile (removeFile d n) n = none := by
  induction d with
  | nil => rfl
  | cons kv rest ih =>
    rcases kv with ⟨m, w⟩
    simp only [List.map_cons, List.nodup_cons] at hnd
    by_cases h : m = n
    · subst h
      simp only [removeFile, if_pos rfl]
      exact getFile_eq_none_of_not_mem rest m hnd.1
    · simp [removeFile, getFile, h, ih hnd.2]

/-- Claim C5: `save_config` writes the serialized full store to the
temporary file `gsm_config.tmp` and atomically replaces
`gsm_config.json`; on any injected failure (open, write, or replace) the
previously persisted configuration file is byte-for-byte unchanged, the
failure is only reported through the returned flag, and no exception
escapes (the model is a total function). -/
theorem c5_save_config_atomic (st : ConfigManager) (now : Str)
    (openOk writeOk replaceOk : Bool) :
    (¬(openOk = true ∧ writeOk = true ∧ replaceOk = true) →
      (ConfigManager.save_config st now openOk writeOk replaceOk).2 = false ∧
      getFile (ConfigManager.save_config st now openOk writeOk replaceOk).1.disk
          ConfigManager.configPath = getFile st.disk ConfigManager.configPath) ∧
    ((openOk = true ∧ writeOk = true ∧ replaceOk = true) →
      (ConfigManager.save_config st now openOk writeOk replaceOk).2 = true ∧
      getFile (ConfigManager.save_config st now openOk writeOk replaceOk).1.disk
          ConfigManager.configPath =
        some (some (ConfigManager.serialize st now))) := by
  have hne : ConfigManager.tmpPath ≠ ConfigManager.configPath := by decide
  cases openOk with
  | false =>
    exact ⟨fun _ => ⟨rfl, rfl⟩, fun h => absurd h.1 (by simp)⟩
  | true =>
    cases writeOk with
    | false =>
      refine ⟨fun _ => ⟨rfl, ?_⟩, fun h => absurd h.2.1 (by simp)⟩
      exact getFile_setFile_ne st.disk _ _ _ hne
    | true =>
      cases replaceOk with
      | false =>
        refine ⟨fun _ => ⟨rfl, ?_⟩, fun h => absurd h.2.2 (by simp)⟩
        exact getFile_setFile_ne st.disk _ _ _ hne
      | true =>
        refine ⟨fun h => absurd ⟨rfl, rfl, rfl⟩ h, fun _ => ⟨rfl, ?_⟩⟩
        exact getFile_setFile_self _ _ _

/-- Witness for claim C5 at a concrete state: a store with one profile and
a previously saved configuration file, with the write step failing. -/
theorem c5_save_config_atomic_witness :
    (¬((true : Bool) = true ∧ (false : Bool) = true ∧ (true : Bool) = true)) ∧
    ((ConfigManager.save_config
        { games := [{ id := str "g", name := str "G", save_path := str "%TEMP%/s" }],
          theme := str "system", window_geometry := none, table_widths := [],
          backup_location_mode := str "cwd", backup_fixed_path := [],
          disk := [(ConfigManager.configPath, none)] }
        (str "2024-01-01") true false true).2 = false ∧
      getFile (ConfigManager.save_config
        { games := [{ id := str "g", name := str "G", save_path := str "%TEMP%/s" }],
          theme := str "system", window_geometry := none, table_widths := [],
          backup_location_mode := str "cwd", backup_fixed_path := [],
          disk := [(ConfigManager.configPath, none)] }
        (str "2024-01-01") true false true).1.disk ConfigManager.configPath =
      getFile [(ConfigManager.configPath, (none : FileData))]
        ConfigManager.configPath) :=
  ⟨by decide,
   (c5_save_config_atomic
      { games := [{ id := str "g", name := str "G", save_path := str "%TEMP%/s" }],
        theme := str "system", window_geometry := none, table_widths := [],
        backup_location_mode := str "cwd", backup_fixed_path := [],
        disk := [(ConfigManager.configPath, none)] }
      (str "2024-01-01") true false true).1 (by decide)⟩

/-- Claim C6: when the persisted configuration file exists but its content
fails JSON parsing, `load_config` renames it aside non-destructively to
`gsm_config.json.corrupted` (content preserved, original name gone) and
leaves the store empty; a missing configuration file is not an error and
leaves the manager — in particular its initially empty store — untouched.
Both branches return normally (the model is a total function: the
`JSONDecodeError` handler and the nested rename handler catch every
exception). -/
theorem c6_load_config_quarantine (env : Env) (ex : Str → Bool) (cwd : Str)
    (st : ConfigManager) (hnd : (st.disk.map Prod.fst).Nodup) :
    (getFile st.disk ConfigManager.configPath = some none →
      (ConfigManager.load_config env ex cwd st).games = [] ∧
      getFile (ConfigManager.load_config env ex cwd st).disk
        ConfigManager.configPath = none ∧
      getFile (ConfigManager.load_config env ex cwd st).disk
        (withSuffix ConfigManager.configPath (str ".json.corrupted")) = some none ∧
      withSuffix ConfigManager.configPath (str ".json.corrupted") =
        str "gsm_config.json.corrupted") ∧
    (getFile st.disk ConfigManager.configPath = none →
      ConfigManager.load_config env ex cwd st = st) := by
  have hne : withSuffix ConfigManager.configPath (str ".json.corrupted") ≠
      ConfigManager.configPath := by decide
  constructor
  · intro hcorrupt
    have hload : ConfigManager.load_config env ex cwd st =
        { st with
          games := [],
          disk := setFile (removeFile st.disk ConfigManager.configPath)
            (withSuffix ConfigManager.configPath (str ".json.corrupted")) none } := by
      rw [ConfigManager.load_config, hcorrupt]
    refine ⟨by rw [hload], ?_, ?_, by decide⟩
    · rw [hload]
      show getFile (setFile _ _ _) _ = none
      rw [getFile_setFile_ne _ _ _ _ hne]
      exact getFile_removeFile_self st.disk _ hnd
    · rw [hload]
      exact getFile_setFile_self _ _ _
  · intro hmissing
    rw [ConfigManager.load_config, hmissing]

/-- Witness for claim C6: a manager whose disk holds an unparseable
configuration file, and one whose disk holds no configuration file at
all. -/
theorem c6_load_config_quarantine_witness :
    ((ConfigManager.load_config [] (fun _ => false) (str "/")
        { games := [], theme := str "system", window_geometry := none,
          table_widths := [], backup_location_mode := str "cwd",
          backup_fixed_path := [],
          disk := [(ConfigManager.configPath, none)] }).games = [] ∧
      getFile (ConfigManager.load_config [] (fun _ => false) (str "/")
        { games := [], theme := str "system", window_geometry := none,
          table_widths := [], backup_location_mode := str "cwd",
          backup_fixed_path := [],
          disk := [(ConfigManager.configPath, none)] }).disk
        ConfigManager.configPath = none ∧
      getFile (ConfigManager.load_config [] (fun _ => false) (str "/")
        { games := [], theme := str "system", window_geometry := none,
          table_widths := [], backup_location_mode := str "cwd",
          backup_fixed_path := [],
          disk := [(ConfigManager.configPath, none)] }).disk
        (withSuffix ConfigManager.configPath (str ".json.corrupted")) = some none ∧
      withSuffix ConfigManager.configPath (str ".json.corrupted") =
        str "gsm_config.json.corrupted") ∧
    (ConfigManager.load_config [] (fun _ => false) (str "/")
        { games := [], theme := str "system", window_geometry := none,
          table_widths := [], backup_location_mode := str "cwd",
          backup_fixed_path := [], disk := [] } =
      { games := [], theme := str "system", window_geometry := none,
        table_widths := [], backup_location_mode := str "cwd",
        backup_fixed_path := [], disk := [] }) :=
  ⟨(c6_load_config_quarantine [] (fun _ => false) (str "/")
      { games := [], theme := str "system", window_geometry := none,
        table_widths := [], backup_location_mode := str "cwd",
        backup_fixed_path := [],
        disk := [(ConfigManager.configPath, none)] } (by decide)).1 (by decide),
   (c6_load_config_quarantine [] (fun _ => false) (str "/")
      { games := [], theme := str "system", window_geometry := none,
        table_widths := [], backup_location_mode := str "cwd",
        backup_fixed_path := [], disk := [] } (by decide)).2 (by decide)⟩

theorem drop_findIdx_mark (l : Str) (h : ∃ c ∈ l, isMark c = true) :
    ∃ pre post, l = pre ++ post ∧ (∀ c ∈ pre, isMark c = false) ∧
      (∃ c, post.head? = some c ∧ isMark c = true) ∧
      l.drop (l.findIdx isMark) = post := by
  induction l with
  | nil => simp at h
  | cons a as ih =>
    by_cases ha : isMark a = true
    · exact ⟨[], a :: as, rfl, by simp, ⟨a, rfl, ha⟩,
        by simp [List.findIdx_cons, ha]⟩
    · have h' : ∃ c ∈ as, isMark c = true := by
        obtain ⟨c, hc, hm⟩ := h
        rcases List.mem_cons.mp hc with rfl | hc'
        · exact absurd hm ha
        · exact ⟨c, hc', hm⟩
      obtain ⟨pre, post, h1, h2, h3, h4⟩ := ih h'
      refine ⟨a :: pre, post, by rw [List.cons_append, ← h1], ?_, h3, ?_⟩
      · intro c hc
        rcases List.mem_cons.mp hc with rfl | hc'
        · simpa using ha
        · exact h2 c hc'
      · rw [List.findIdx_cons]
        simp only [ha, cond_false]
        rw [List.drop_succ_cons]
        exact h4

/-- Claim C10: for every profile record read back by `load_config` (a
record of the persisted schema), if the stored `save_path` contains a `%`
or `$` anywhere, `from_dict` silently discards every character before the
first such occurrence and keeps the rest verbatim; a stored `save_path`
containing neither character is re-contracted against the current
environment, so the in-memory value may differ from the persisted
string. -/
theorem c10_from_dict_save_path (env : Env) (ex : Str → Bool) (cwd : Str)
    (data : ProfileDict) :
    (('%' ∈ data.save_path ∨ '$' ∈ data.save_path) →
      ∃ pre post, data.save_path = pre ++ post ∧
        (∀ c ∈ pre, c ≠ '%' ∧ c ≠ '$') ∧
        (∃ c, post.head? = some c ∧ (c = '%' ∨ c = '$')) ∧
        (GameProfile.from_dict env ex cwd data).save_path = post) ∧
    (('%' ∉ data.save_path ∧ '$' ∉ data.save_path) →
      (GameProfile.from_dict env ex cwd data).save_path =
        PathUtils.contract env ex cwd data.save_path) := by
  constructor
  · intro hmark
    have hex : ∃ c ∈ data.save_path, isMark c = true := by
      rcases hmark with h | h
      · exact ⟨'%', h, by decide⟩
      · exact ⟨'$', h, by decide⟩
    obtain ⟨pre, post, h1, h2, h3, h4⟩ := drop_findIdx_mark data.save_path hex
    obtain ⟨c, hc1, hc2⟩ := h3
    have hc3 : c = '%' ∨ c = '$' := by
      simpa [isMark] using hc2
    refine ⟨pre, post, h1, ?_, ⟨c, hc1, hc3⟩, ?_⟩
    · intro x hx
      have hxm := h2 x hx
      constructor <;> intro h0 <;> subst h0 <;> exact absurd hxm (by decide)
    · simp only [GameProfile.from_dict]
      rw [if_pos hmark, h4, if_neg]
      rintro ⟨-, hno⟩
      apply hno
      rcases hc3 with rfl | rfl
      · exact Or.inl hc1
      · exact Or.inr hc1
  · rintro ⟨h1, h2⟩
    simp only [GameProfile.from_dict]
    rw [if_neg (show ¬('%' ∈ data.save_path ∨ '$' ∈ data.save_path) by tauto)]
    by_cases hne : data.save_path = []
    · rw [if_neg (by simp [hne]), hne]
      simp [PathUtils.contract]
    · rw [if_pos]
      refine ⟨hne, ?_⟩
      rintro (h0 | h0)
      · rcases hsp : data.save_path with _ | ⟨x, xs⟩
        · exact hne hsp
        · rw [hsp] at h0
          simp only [List.head?_cons, Option.some.injEq] at h0
          exact h1 (by rw [hsp, h0]; simp)
      · rcases hsp : data.save_path with _ | ⟨x, xs⟩
        · exact hne hsp
        · rw [hsp] at h0
          simp only [List.head?_cons, Option.some.injEq] at h0
          exact h2 (by rw [hsp, h0]; simp)

/-- Witness for claim C10, both branches: stored `save_path` `a$b` loses
its leading `a` (prefix-strip at the first placeholder mark), and stored
`/data/save/f` with environment `HOME=/data/save` is re-contracted on load
to `$HOME/f`, which differs from the persisted string. -/
theorem c10_from_dict_save_path_witness :
    (∃ pre post,
      (str "a$b" : Str) = pre ++ post ∧
      (∀ c ∈ pre, c ≠ '%' ∧ c ≠ '$') ∧
      (∃ c, post.head? = some c ∧ (c = '%' ∨ c = '$')) ∧
      (GameProfile.from_dict [] (fun _ => false) (str "/")
        { id := str "g", name := str "G", save_path := str "a$b",
          use_compression := true, clear_folder_on_restore := true,
          plugin_id := [], icon := [] }).save_path = post) ∧
    ((GameProfile.from_dict [(str "HOME", str "/data/save")]
        (fun s => decide (s = str "/data/save")) (str "/")
        { id := str "g", name := str "G", save_path := str "/data/save/f",
          use_compression := true, clear_folder_on_restore := true,
          plugin_id := [], icon := [] }).save_path =
      PathUtils.contract [(str "HOME", str "/data/save")]
        (fun s => decide (s = str "/data/save")) (str "/") (str "/data/save/f")) ∧
    PathUtils.contract [(str "HOME", str "/data/save")]
      (fun s => decide (s = str "/data/save")) (str "/") (str "/data/save/f") =
      str "$HOME/f" ∧
    (str "$HOME/f" : Str) ≠ str "/data/save/f" :=
  ⟨(c10_from_dict_save_path [] (fun _ => false) (str "/")
      { id := str "g", name := str "G", save_path := str "a$b",
        use_compression := true, clear_folder_on_restore := true,
        plugin_id := [], icon := [] }).1 (by decide),
   (c10_from_dict_save_path [(str "HOME", str "/data/save")]
      (fun s => decide (s = str "/data/save")) (str "/")
      { id := str "g", name := str "G", save_path := str "/data/save/f",
        use_compression := true, clear_folder_on_restore := true,
        plugin_id := [], icon := [] }).2 (by decide),
   by decide, by decide⟩

theorem from_dict_to_dict_placeholder (env : Env) (ex : Str → Bool) (cwd : Str)
    (p : GameProfile)
    (h : p.save_path.head? = some '%' ∨ p.save_path.head? = some '$') :
    GameProfile.from_dict env ex cwd (GameProfile.to_dict p) =
      { p with file_patterns := [str "*"] } := by
  rcases p with ⟨pid, pname, psp, pfp, puc, pcf, ppl, pic⟩
  simp only at h
  rcases hsp : psp with _ | ⟨x, xs⟩
  · rw [hsp] at h; simp at h
  · subst hsp
    simp only [List.head?_cons, Option.some.injEq] at h
    rcases h with h | h <;> subst h <;>
      simp [GameProfile.from_dict, GameProfile.to_dict, List.findIdx_cons, isMark]

theorem upsertGame_append (acc : List GameProfile) (p : GameProfile)
    (h : p.id ∉ acc.map GameProfile.id) :
    ConfigManager.upsertGame acc p = acc ++ [p] := by
  induction acc with
  | nil => rfl
  | cons q qs ih =>
    have hq : q.id ≠ p.id := fun h0 => h (by simp [h0])
    simp only [ConfigManager.upsertGame, if_neg hq]
    rw [ih (fun hm => h (List.mem_cons_of_mem _ hm))]
    rfl

theorem foldl_upsert_from_dict (env : Env) (ex : Str → Bool) (cwd : Str)
    (ps : List GameProfile) (acc : List GameProfile)
    (hsp : ∀ p ∈ ps, p.save_path.head? = some '%' ∨ p.save_path.head? = some '$')
    (hnd : (acc.map GameProfile.id ++ ps.map GameProfile.id).Nodup) :
    ps.foldl (fun acc p => ConfigManager.upsertGame acc
      (GameProfile.from_dict env ex cwd (GameProfile.to_dict p))) acc =
      acc ++ ps.map (fun p => { p with file_patterns := [str "*"] }) := by
  induction ps generalizing acc with
  | nil => simp
  | cons p pt ih =>
    simp only [List.foldl_cons, List.map_cons]
    rw [from_dict_to_dict_placeholder env ex cwd p (hsp p (by simp))]
    have hdisj := (List.nodup_append.mp hnd).2.2
    have hp : ({ p with file_patterns := [str "*"] } : GameProfile).id ∉
        acc.map GameProfile.id := by
      intro hm
      exact hdisj hm (by simp)
    rw [upsertGame_append acc _ hp]
    have hnd' : ((acc ++ [{ p with file_patterns := [str "*"] }]).map GameProfile.id ++
        pt.map GameProfile.id).Nodup := by
      simpa [List.map_append, List.append_assoc] using hnd
    have hih := ih (acc ++ [{ p with file_patterns := [str "*"] }])
      (fun q hq => hsp q (List.mem_cons_of_mem p hq)) hnd'
    rw [hih]
    simp

/-- Counterexample to claim C8 as stated: a stored profile whose
`save_path` is `a$b` comes back from `save_config(); load_config()` with
`save_path` `$b` — `from_dict` strips everything before the first
placeholder character — so the reloaded profile is not field-for-field
equivalent even after resetting `file_patterns`. -/
theorem c8_save_load_counterexample :
    (ConfigManager.load_config [] (fun _ => false) (str "/")
      (ConfigManager.save_config
        { games := [{ id := str "g1", name := str "G", save_path := str "a$b",
                      file_patterns := [str "*"], use_compression := true,
                      clear_folder_on_restore := true, plugin_id := [],
                      icon := [] }],
          theme := str "system", window_geometry := none, table_widths := [],
          backup_location_mode := str "cwd", backup_fixed_path := [],
          disk := [] }
        (str "2024-01-01") true true true).1).games ≠
      ([{ id := str "g1", name := str "G", save_path := str "a$b",
          file_patterns := [str "*"], use_compression := true,
          clear_folder_on_restore := true, plugin_id := [], icon := [] }] :
        List GameProfile).map
        (fun p => { p with file_patterns := [str "*"] }) := by
  decide

/-- Amended claim C8: for every store whose profiles have distinct ids,
`save_config()` followed by `load_config()` reproduces each profile
field-for-field with `file_patterns` reset to the default `["*"]` and
`save_path` re-canonicalized by `from_dict`; the save_path survives
verbatim exactly when it already begins with a placeholder character
(`%` or `$`), which this theorem assumes. -/
theorem c8_save_load_roundtrip (env : Env) (ex : Str → Bool) (cwd : Str)
    (st : ConfigManager) (now : Str)
    (hnd : (st.games.map GameProfile.id).Nodup)
    (hsp : ∀ p ∈ st.games,
      p.save_path.head? = some '%' ∨ p.save_path.head? = some '$') :
    (ConfigManager.load_config env ex cwd
      (ConfigManager.save_config st now true true true).1).games =
      st.games.map (fun p => { p with file_patterns := [str "*"] }) := by
  have hget : getFile (ConfigManager.save_config st now true true true).1.disk
      ConfigManager.configPath = some (some (ConfigManager.serialize st now)) :=
    getFile_setFile_self _ _ _
  simp only [ConfigManager.load_config, hget, ConfigManager.serialize]
  rw [List.foldl_map]
  rw [foldl_upsert_from_dict env ex cwd st.games [] hsp (by simpa using hnd)]
  simp

/-- Witness for the amended claim C8: one profile whose save path starts
with a placeholder roundtrips through save and load with only
`file_patterns` reset. -/
theorem c8_save_load_roundtrip_witness :
    (ConfigManager.load_config [] (fun _ => false) (str "/")
      (ConfigManager.save_config
        { games := [{ id := str "g1", name := str "G",
                      save_path := str "%TEMP%/demo_save",
                      file_patterns := [str "*.sav"], use_compression := true,
                      clear_folder_on_restore := true, plugin_id := [],
                      icon := [] }],
          theme := str "system", window_geometry := none, table_widths := [],
          backup_location_mode := str "cwd", backup_fixed_path := [],
          disk := [] }
        (str "2024-01-01") true true true).1).games =
      ([{ id := str "g1", name := str "G", save_path := str "%TEMP%/demo_save",
          file_patterns := [str "*.sav"], use_compression := true,
          clear_folder_on_restore := true, plugin_id := [],
          icon := [] }] : List GameProfile).map
        (fun p => { p with file_patterns := [str "*"] }) :=
  c8_save_load_roundtrip [] (fun _ => false) (str "/")
    { games := [{ id := str "g1", name := str "G",
                  save_path := str "%TEMP%/demo_save",
                  file_patterns := [str "*.sav"], use_compression := true,
                  clear_folder_on_restore := true, plugin_id := [], icon := [] }],
      theme := str "system", window_geometry := none, table_widths := [],
      backup_location_mode := str "cwd", backup_fixed_path := [], disk := [] }
    (str "2024-01-01") (by decide) (by decide)

/-! Backup and restore (`run_backup`, `run_restore` in `core.py`). -/

/-- Wall-clock time as `datetime.now()` provides it (date and time
fields only; the claims never need finer resolution). -/
structure DateTime where
  year : Nat
  month : Nat
  day : Nat
  hour : Nat
  minute : Nat
  second : Nat
deriving DecidableEq

def digitChar (n : Nat) : Char :=
  match n with
  | 0 => '0' | 1 => '1' | 2 => '2' | 3 => '3' | 4 => '4'
  | 5 => '5' | 6 => '6' | 7 => '7' | 8 => '8' | _ => '9'

/-- Two-digit zero-padded decimal field (`%m`, `%d`, `%H`, `%M`, `%S`). -/
def pad2 (n : Nat) : Str := [digitChar (n / 10 % 10), digitChar (n % 10)]

/-- Four-digit year field (`%Y` for the years the program runs in). -/
def pad4 (n : Nat) : Str :=
  [digitChar (n / 1000 % 10), digitChar (n / 100 % 10),
   digitChar (n / 10 % 10), digitChar (n % 10)]

/-- Model of `datetime.now().strftime("%Y-%m-%d_%H-%M-%S")`, the
timestamp embedded in backup and safety-archive file names. -/
def formatTS (t : DateTime) : Str :=
  pad4 t.year ++ '-' :: pad2 t.month ++ '-' :: pad2 t.day ++ '_' ::
  pad2 t.hour ++ '-' :: pad2 t.minute ++ '-' :: pad2 t.second

theorem digitChar_ne_dot (n : Nat) : digitChar n ≠ '.' := by
  rcases n with _ | _ | _ | _ | _ | _ | _ | _ | _ | n <;>
    first
    | decide
    | (show ('9' : Char) ≠ '.'; decide)

theorem pad2_no_dot (n : Nat) : '.' ∉ pad2 n := by
  intro hm
  simp only [pad2, List.mem_cons, List.not_mem_nil, or_false] at hm
  rcases hm with h | h <;> exact digitChar_ne_dot _ h.symm

theorem pad4_no_dot (n : Nat) : '.' ∉ pad4 n := by
  intro hm
  simp only [pad4, List.mem_cons, List.not_mem_nil, or_false] at hm
  rcases hm with h | h | h | h <;> exact digitChar_ne_dot _ h.symm

theorem formatTS_no_dot (t : DateTime) : '.' ∉ formatTS t := by
  have hcons : ∀ (c : Char), c ≠ '.' → ∀ n, '.' ∉ c :: pad2 n := by
    intro c hc n hm
    rcases List.mem_cons.mp hm with h | h
    · exact hc h.symm
    · exact pad2_no_dot n h
  intro hm
  rcases List.mem_append.mp hm with hm | h
  · rcases List.mem_append.mp hm with hm | h
    · rcases List.mem_append.mp hm with hm | h
      · rcases List.mem_append.mp hm with hm | h
        · rcases List.mem_append.mp hm with hm | h
          · exact pad4_no_dot _ hm
          · exact hcons '-' (by decide) _ h
        · exact hcons '-' (by decide) _ h
      · exact hcons '_' (by decide) _ h
    · exact hcons '-' (by decide) _ h
  · exact hcons '-' (by decide) _ h

/-- Stripping the `.zip` suffix (`Path.with_suffix("")`) from a name whose
stem contains no dot recovers the stem; `shutil.make_archive` then appends
`.zip` again. -/
theorem withSuffix_zip_empty (b : Str) (hb : b ≠ []) (hdot : '.' ∉ b) :
    withSuffix (b ++ str ".zip") [] = b := by
  have hrev : (b ++ str ".zip").reverse = 'p' :: 'i' :: 'z' :: '.' :: b.reverse := by
    rw [List.reverse_append]
    rfl
  have hfind : List.findIdx? (fun c => c = '.')
      ('p' :: 'i' :: 'z' :: '.' :: b.reverse) = some 3 := by
    rw [List.findIdx?_cons, if_neg (by decide), List.findIdx?_cons,
      if_neg (by decide), List.findIdx?_cons, if_neg (by decide),
      List.findIdx?_cons, if_pos (by decide)]
  have hlen : (b ++ str ".zip").length = b.length + 4 := by
    rw [List.length_append]
    rfl
  unfold withSuffix
  rw [hrev, hfind]
  simp only [hlen]
  have hi : b.length + 4 - 1 - 3 = b.length := by omega
  rw [hi]
  rw [if_pos ⟨List.length_pos.mpr hb, by omega⟩]
  rw [List.take_left, List.append_nil]

/-- Filesystem effects of a restore run (`run_restore`, `core.py`), in the
order the synchronous code performs them.  `extractArchive` stands for
`zipfile.ZipFile(backup_file).extractall(target_path)`, modelled in detail
by `extractall` below. -/
inductive REvent
  | mkSafetyDir (dir : List Str)
  | makeArchive (file : List Str)
  | rmtreeTarget
  | mkdirTarget
  | extractArchive (backupFile : Str)
deriving DecidableEq

/-- Safety directory of a profile: `backup_root / game_name / "Safety"`
(`ConfigManager.get_safety_backup_dir`, created on demand). -/
def safetyBackupDir (backupRoot : List Str) (gameName : Str) : List Str :=
  backupRoot ++ [gameName, str "Safety"]

/-- Model of `run_restore` (`core.py`) as its trace of filesystem effects.
`targetExists` models `target_path.exists()` for the expanded save path
and `targetNonempty` models `any(target_path.iterdir())` (the code
evaluates the conjunction with short-circuiting, so the oracles are
independent parameters).  The safety archive is produced by
`shutil.make_archive(str(safety_zip.with_suffix("")), "zip", target_path)`,
which writes `with_suffix("")` of the name plus `".zip"`. -/
def run_restore (profileName : Str) (backupRoot : List Str)
    (targetExists targetNonempty clear_first : Bool)
    (backupFile : Str) (now : DateTime) : List REvent :=
  (if targetExists && targetNonempty then
    [REvent.mkSafetyDir (safetyBackupDir backupRoot profileName),
     REvent.makeArchive (safetyBackupDir backupRoot profileName ++
       [withSuffix (str "SAFETY_" ++ formatTS now ++ str ".zip") [] ++ str ".zip"])]
   else []) ++
  (if clear_first && targetExists then [REvent.rmtreeTarget, REvent.mkdirTarget]
   else if !targetExists then [REvent.mkdirTarget]
   else []) ++
  [REvent.extractArchive backupFile]

/-- Events that destroy or overwrite data in the restore target: removal
of the target tree and extraction into it. -/
def isDestructive : REvent → Bool
  | REvent.rmtreeTarget => true
  | REvent.extractArchive _ => true
  | _ => false

/-- Claim C1: whenever the restore target exists and is non-empty, the
trace of `run_restore` contains the creation of a safety archive named
`SAFETY_<timestamp>.zip` inside the profile's safety directory, and every
event preceding it is non-destructive (the snapshot completes before any
clearing of or extraction into the target); the snapshot is absent from
the trace exactly when the target does not exist or is empty. -/
theorem c1_restore_safety_snapshot_first (profileName : Str)
    (backupRoot : List Str) (targetExists targetNonempty clear_first : Bool)
    (backupFile : Str) (now : DateTime) :
    ((targetExists && targetNonempty) = true →
      ∃ pre post,
        run_restore profileName backupRoot targetExists targetNonempty
            clear_first backupFile now =
          pre ++ REvent.makeArchive (safetyBackupDir backupRoot profileName ++
            [str "SAFETY_" ++ formatTS now ++ str ".zip"]) :: post ∧
        (∀ e ∈ pre, isDestructive e = false)) ∧
    ((targetExists && targetNonempty) = false ↔
      ∀ f, REvent.makeArchive f ∉
        run_restore profileName backupRoot targetExists targetNonempty
          clear_first backupFile now) := by
  have hname : withSuffix (str "SAFETY_" ++ formatTS now ++ str ".zip") [] ++
      str ".zip" = str "SAFETY_" ++ formatTS now ++ str ".zip" := by
    have hb : ('.' : Char) ∉ (str "SAFETY_" ++ formatTS now : Str) := by
      intro hm
      rcases List.mem_append.mp hm with h | h
      · revert h; decide
      · exact formatTS_no_dot now h
    rw [withSuffix_zip_empty (str "SAFETY_" ++ formatTS now) (by simp [str]) hb]
  have hname' := hname
  rw [List.append_assoc] at hname'
  constructor
  · intro h
    rcases hte : targetExists with _ | _
    · rw [hte] at h; simp at h
    · rcases htn : targetNonempty with _ | _
      · rw [hte, htn] at h; simp at h
      · subst hte; subst htn
        refine ⟨[REvent.mkSafetyDir (safetyBackupDir backupRoot profileName)],
          (if clear_first then [REvent.rmtreeTarget, REvent.mkdirTarget]
           else []) ++ [REvent.extractArchive backupFile], ?_, ?_⟩
        · rcases clear_first with _ | _ <;> simp [run_restore, hname']
        · intro e he
          simp only [List.mem_singleton] at he
          subst he
          rfl
  · constructor
    · intro h f hmem
      rcases hte : targetExists with _ | _ <;> rcases htn : targetNonempty with _ | _ <;>
        subst hte <;> subst htn <;>
        rcases clear_first with _ | _ <;>
        simp_all [run_restore]
    · intro h
      rcases hte : targetExists with _ | _
      · simp
      · rcases htn : targetNonempty with _ | _
        · simp
        · exfalso
          subst hte; subst htn
          refine h (safetyBackupDir backupRoot profileName ++
            [withSuffix (str "SAFETY_" ++ formatTS now ++ str ".zip") [] ++
              str ".zip"]) ?_
          rcases clear_first with _ | _ <;> simp [run_restore]

/-- Witness for claim C1 at a concrete restore run: target exists and is
non-empty, `clear_folder_on_restore` true. -/
theorem c1_restore_safety_snapshot_first_witness :
    ∃ pre post,
      run_restore (str "Demo") [str "backups"] true true true (str "b.zip")
          ⟨2024, 1, 2, 3, 4, 5⟩ =
        pre ++ REvent.makeArchive (safetyBackupDir [str "backups"] (str "Demo") ++
          [str "SAFETY_" ++ formatTS ⟨2024, 1, 2, 3, 4, 5⟩ ++ str ".zip"]) :: post ∧
      (∀ e ∈ pre, isDestructive e = false) :=
  (c1_restore_safety_snapshot_first (str "Demo") [str "backups"] true true true
    (str "b.zip") ⟨2024, 1, 2, 3, 4, 5⟩).1 rfl

/-- Relative path of a file inside the source tree, as component list
(`file_path.relative_to(source_path)`). -/
abbrev RelPath := List Str

/-- Filesystem effects of a backup run, in order: backup directory
creation (`get_game_backup_dir`) and zip creation with its entry list. -/
inductive BEvent
  | mkBackupDir (dir : List Str)
  | createZip (file : List Str) (entries : List RelPath)
deriving DecidableEq

/-- Errors raised by `run_backup`: `FileNotFoundError("Source path not
found: ...")` and `RuntimeError("Folder is empty.")`. -/
inductive BackupError
  | sourceNotFound
  | emptySource
deriving DecidableEq

/-- Regular backup directory of a profile: `backup_root / game_name`
(`ConfigManager.get_game_backup_dir`). -/
def gameBackupDir (backupRoot : List Str) (gameName : Str) : List Str :=
  backupRoot ++ [gameName]

/-- Model of `run_backup` (`core.py`).  `sourceExists` models
`PathUtils.expand(profile.save_path).exists()`; `walkFiles` lists, in
`os.walk` order, every file under the source by its path relative to the
source.  The result is the effect trace plus the created archive path or
the raised error.  Note that the code collects every walked file —
`profile.file_patterns` is never consulted. -/
def run_backup (profile : GameProfile) (backupRoot : List Str)
    (sourceExists : Bool) (walkFiles : List RelPath) (now : DateTime) :
    List BEvent × Except BackupError (List Str) :=
  if !sourceExists then ([], Except.error BackupError.sourceNotFound)
  else
    let dest_dir := gameBackupDir backupRoot profile.name
    let dest_zip := dest_dir ++ [profile.name ++ '_' :: formatTS now ++ str ".zip"]
    if walkFiles = [] then
      ([BEvent.mkBackupDir dest_dir], Except.error BackupError.emptySource)
    else
      ([BEvent.mkBackupDir dest_dir, BEvent.createZip dest_zip walkFiles],
       Except.ok dest_zip)

/-- Modelled from the spec: glob matching (`fnmatch`-style `*` and `?`
wildcards) of a pattern against a file name, needed to state what "files
matching the profile's filePatterns" means — the missing part is any use
of `file_patterns` by the archiving code itself, which walks every file.
Fuel-based recursion (the combined length bounds the recursion depth) so
the matcher stays structurally computable. -/
def globMatchFuel : Nat → Str → Str → Bool
  | 0, _, _ => false
  | _ + 1, [], [] => true
  | f + 1, '*' :: ps, [] => globMatchFuel f ps []
  | f + 1, '*' :: ps, c :: cs =>
    globMatchFuel f ps (c :: cs) || globMatchFuel f ('*' :: ps) cs
  | f + 1, '?' :: ps, _ :: cs => globMatchFuel f ps cs
  | f + 1, p :: ps, c :: cs => (p == c) && globMatchFuel f ps cs
  | _ + 1, _ :: _, [] => false
  | _ + 1, [], _ :: _ => false

def globMatch (pattern name : Str) : Bool :=
  globMatchFuel (pattern.length + name.length + 1) pattern name

/-- Modelled from the spec: a file matches the profile's patterns when
some pattern glob-matches its file name (the last component of its
relative path). -/
def matchesPatterns (patterns : List Str) (rel : RelPath) : Bool :=
  patterns.any (fun p => globMatch p (rel.getLastD []))

/-- Counterexample to claim C3 as stated: with `filePatterns = ["*.sav"]`
and a source holding only `a.txt` (which matches no pattern), the archive
created by `run_backup` nevertheless contains `a.txt` — the set of
archived files is not the set of pattern-matching files, because
`run_backup` never consults `file_patterns`. -/
theorem c3_backup_patterns_counterexample :
    matchesPatterns [str "*.sav"] [str "a.txt"] = false ∧
    BEvent.createZip
        [str "backups", str "Demo",
         str "Demo_" ++ formatTS ⟨2024, 1, 2, 3, 4, 5⟩ ++ str ".zip"]
        [[str "a.txt"]] ∈
      (run_backup
        { id := str "g", name := str "Demo", save_path := str "%TEMP%/demo_save",
          file_patterns := [str "*.sav"], use_compression := true,
          clear_folder_on_restore := true, plugin_id := [], icon := [] }
        [str "backups"] true [[str "a.txt"]] ⟨2024, 1, 2, 3, 4, 5⟩).1 ∧
    ([[str "a.txt"]] : List RelPath).filter
        (matchesPatterns [str "*.sav"]) = [] := by
  refine ⟨by decide, ?_, by decide⟩
  decide

/-- Amended claim C3: for every backup run on an existing, non-empty
source, the created archive contains exactly all the files under the
source — each stored under its path relative to the source directory —
regardless of the profile's `filePatterns`, which the archiving code never
consults. -/
theorem c3_backup_archives_all_files (profile : GameProfile)
    (backupRoot : List Str) (walkFiles : List RelPath) (now : DateTime)
    (hne : walkFiles ≠ []) :
    (run_backup profile backupRoot true walkFiles now).2 =
      Except.ok (gameBackupDir backupRoot profile.name ++
        [profile.name ++ '_' :: formatTS now ++ str ".zip"]) ∧
    BEvent.createZip (gameBackupDir backupRoot profile.name ++
        [profile.name ++ '_' :: formatTS now ++ str ".zip"]) walkFiles ∈
      (run_backup profile backupRoot true walkFiles now).1 ∧
    (∀ z es, BEvent.createZip z es ∈
        (run_backup profile backupRoot true walkFiles now).1 → es = walkFiles) := by
  refine ⟨?_, ?_, ?_⟩
  · simp [run_backup, hne]
  · simp [run_backup, hne]
  · intro z es hmem
    simp [run_backup, hne] at hmem
    exact hmem.2

/-- Witness for the amended claim C3 at a concrete backup run with two
files. -/
theorem c3_backup_archives_all_files_witness :
    (run_backup
      { id := str "g", name := str "Demo", save_path := str "%TEMP%/demo_save",
        file_patterns := [str "*"], use_compression := true,
        clear_folder_on_restore := true, plugin_id := [], icon := [] }
      [str "backups"] true [[str "a.txt"], [str "sub", str "b.sav"]]
      ⟨2024, 1, 2, 3, 4, 5⟩).2 =
      Except.ok (gameBackupDir [str "backups"] (str "Demo") ++
        [str "Demo" ++ '_' :: formatTS ⟨2024, 1, 2, 3, 4, 5⟩ ++ str ".zip"]) ∧
    BEvent.createZip (gameBackupDir [str "backups"] (str "Demo") ++
        [str "Demo" ++ '_' :: formatTS ⟨2024, 1, 2, 3, 4, 5⟩ ++ str ".zip"])
        [[str "a.txt"], [str "sub", str "b.sav"]] ∈
      (run_backup
        { id := str "g", name := str "Demo", save_path := str "%TEMP%/demo_save",
          file_patterns := [str "*"], use_compression := true,
          clear_folder_on_restore := true, plugin_id := [], icon := [] }
        [str "backups"] true [[str "a.txt"], [str "sub", str "b.sav"]]
        ⟨2024, 1, 2, 3, 4, 5⟩).1 ∧
    (∀ z es, BEvent.createZip z es ∈
        (run_backup
          { id := str "g", name := str "Demo", save_path := str "%TEMP%/demo_save",
            file_patterns := [str "*"], use_compression := true,
            clear_folder_on_restore := true, plugin_id := [], icon := [] }
          [str "backups"] true [[str "a.txt"], [str "sub", str "b.sav"]]
          ⟨2024, 1, 2, 3, 4, 5⟩).1 →
        es = [[str "a.txt"], [str "sub", str "b.sav"]]) :=
  c3_backup_archives_all_files
    { id := str "g", name := str "Demo", save_path := str "%TEMP%/demo_save",
      file_patterns := [str "*"], use_compression := true,
      clear_folder_on_restore := true, plugin_id := [], icon := [] }
    [str "backups"] [[str "a.txt"], [str "sub", str "b.sav"]]
    ⟨2024, 1, 2, 3, 4, 5⟩ (by decide)

deriving instance DecidableEq for Except

/-- Counterexample to claim C4 as stated: a source that exists and whose
only file `a.txt` matches none of the profile's patterns (`["*.sav"]`)
contains no matching files, yet `run_backup` does not fail with
`EmptySource` — it succeeds and creates an archive, because the emptiness
check counts all walked files, not pattern matches. -/
theorem c4_backup_errors_counterexample :
    (∀ rel ∈ ([[str "a.txt"]] : List RelPath),
      matchesPatterns [str "*.sav"] rel = false) ∧
    (run_backup
        { id := str "g", name := str "Demo", save_path := str "%TEMP%/demo_save",
          file_patterns := [str "*.sav"], use_compression := true,
          clear_folder_on_restore := true, plugin_id := [], icon := [] }
        [str "backups"] true [[str "a.txt"]] ⟨2024, 1, 2, 3, 4, 5⟩).2 ≠
      Except.error BackupError.emptySource ∧
    (run_backup
        { id := str "g", name := str "Demo", save_path := str "%TEMP%/demo_save",
          file_patterns := [str "*.sav"], use_compression := true,
          clear_folder_on_restore := true, plugin_id := [], icon := [] }
        [str "backups"] true [[str "a.txt"]] ⟨2024, 1, 2, 3, 4, 5⟩).2 =
      Except.ok [str "backups", str "Demo",
        str "Demo_" ++ formatTS ⟨2024, 1, 2, 3, 4, 5⟩ ++ str ".zip"] := by
  refine ⟨by decide, by decide, by decide⟩

/-- Amended claim C4: `run_backup` fails with `SourceNotFound` if and only
if the profile's expanded save path does not exist, and fails with
`EmptySource` if and only if the source exists but contains no files at
all (the profile's patterns play no role); in both failure cases no
archive file is created — the trace holds no zip-creation event. -/
theorem c4_backup_errors (profile : GameProfile) (backupRoot : List Str)
    (sourceExists : Bool) (walkFiles : List RelPath) (now : DateTime) :
    ((run_backup profile backupRoot sourceExists walkFiles now).2 =
        Except.error BackupError.sourceNotFound ↔ sourceExists = false) ∧
    ((run_backup profile backupRoot sourceExists walkFiles now).2 =
        Except.error BackupError.emptySource ↔
      (sourceExists = true ∧ walkFiles = [])) ∧
    (∀ e, (run_backup profile backupRoot sourceExists walkFiles now).2 =
        Except.error e →
      ∀ z es, BEvent.createZip z es ∉
        (run_backup profile backupRoot sourceExists walkFiles now).1) := by
  rcases sourceExists with _ | _
  · refine ⟨by simp [run_backup], by simp [run_backup], ?_⟩
    intro e he z es hmem
    simp [run_backup] at hmem
  · rcases hw : walkFiles with _ | ⟨f, fs⟩
    · refine ⟨by simp [run_backup], by simp [run_backup], ?_⟩
      intro e he z es hmem
      simp [run_backup] at hmem
    · refine ⟨by simp [run_backup], by simp [run_backup], ?_⟩
      intro e he z es hmem
      simp [run_backup] at he

/-- Witness for the amended claim C4 at concrete runs: a missing source
yields `SourceNotFound`, an existing but file-less source yields
`EmptySource`, and the failed runs create no archive. -/
theorem c4_backup_errors_witness :
    (run_backup
        { id := str "g", name := str "Demo", save_path := str "%TEMP%/demo_save",
          file_patterns := [str "*"], use_compression := true,
          clear_folder_on_restore := true, plugin_id := [], icon := [] }
        [str "backups"] false [] ⟨2024, 1, 2, 3, 4, 5⟩).2 =
      Except.error BackupError.sourceNotFound ∧
    (run_backup
        { id := str "g", name := str "Demo", save_path := str "%TEMP%/demo_save",
          file_patterns := [str "*"], use_compression := true,
          clear_folder_on_restore := true, plugin_id := [], icon := [] }
        [str "backups"] true [] ⟨2024, 1, 2, 3, 4, 5⟩).2 =
      Except.error BackupError.emptySource ∧
    (∀ z es, BEvent.createZip z es ∉
      (run_backup
        { id := str "g", name := str "Demo", save_path := str "%TEMP%/demo_save",
          file_patterns := [str "*"], use_compression := true,
          clear_folder_on_restore := true, plugin_id := [], icon := [] }
        [str "backups"] true [] ⟨2024, 1, 2, 3, 4, 5⟩).1) :=
  ⟨(c4_backup_errors
      { id := str "g", name := str "Demo", save_path := str "%TEMP%/demo_save",
        file_patterns := [str "*"], use_compression := true,
        clear_folder_on_restore := true, plugin_id := [], icon := [] }
      [str "backups"] false [] ⟨2024, 1, 2, 3, 4, 5⟩).1.mpr rfl,
   (c4_backup_errors
      { id := str "g", name := str "Demo", save_path := str "%TEMP%/demo_save",
        file_patterns := [str "*"], use_compression := true,
        clear_folder_on_restore := true, plugin_id := [], icon := [] }
      [str "backups"] true [] ⟨2024, 1, 2, 3, 4, 5⟩).2.1.mpr ⟨rfl, rfl⟩,
   (c4_backup_errors
      { id := str "g", name := str "Demo", save_path := str "%TEMP%/demo_save",
        file_patterns := [str "*"], use_compression := true,
        clear_folder_on_restore := true, plugin_id := [], icon := [] }
      [str "backups"] true [] ⟨2024, 1, 2, 3, 4, 5⟩).2.2 BackupError.emptySource
      (by decide)⟩

/-! Archive extraction (`zipfile.ZipFile.extractall` as called by the
extract step of `run_restore`). -/

/-- Sanitized component list of an archive member name, as CPython's
`zipfile.ZipFile._extract_member` computes the arcname on POSIX: split on
the separator (`splitdrive` is a no-op) and silently discard empty, `"."`
and `".."` parts. -/
def sanitizeParts (memberName : Str) : List Str :=
  (splitSlash memberName).filter (fun x => ¬ (x = [] ∨ x = str "." ∨ x = str ".."))

/-- The path CPython places a member at:
`os.path.normpath(os.path.join(targetpath, arcname))`. -/
def extractMemberPath (destDir memberName : Str) : Str :=
  normpath (pjoin destDir (joinSlash (sanitizeParts memberName)))

/-- Model of `ZipFile.extractall` as the list of paths the members are
placed at, in member order; no member is ever rejected. -/
def extractall (destDir : Str) (memberNames : List Str) : List Str :=
  memberNames.map (extractMemberPath destDir)

/-- Resolved output path of an entry in the sense of the claim: the
destination joined with the raw stored name and normalized — without any
sanitization. -/
def resolvedOutputPath (destDir memberName : Str) : Str :=
  normpath (pjoin destDir memberName)

theorem splitSlash_no_slash (s : Str) : ∀ x ∈ splitSlash s, '/' ∉ x := by
  induction s with
  | nil =>
    intro x hx
    simp only [splitSlash, List.mem_singleton] at hx
    subst hx
    simp
  | cons c rest ih =>
    intro x hx
    by_cases hc : c = '/'
    · simp only [splitSlash, if_pos hc] at hx
      rcases List.mem_cons.mp hx with h | h
      · subst h; simp
      · exact ih x h
    · simp only [splitSlash, if_neg hc] at hx
      rcases hs : splitSlash rest with _ | ⟨hh, tt⟩
      · exact absurd hs (splitSlash_ne_nil rest)
      · rw [hs] at hx
        rcases List.mem_cons.mp hx with h | h
        · subst h
          intro hm
          rcases List.mem_cons.mp hm with h0 | h0
          · exact hc h0.symm
          · exact ih hh (by rw [hs]; simp) h0
        · exact ih x (by rw [hs]; exact List.mem_cons_of_mem _ h)

theorem sanitizeParts_clean (name : Str) :
    ∀ x ∈ sanitizeParts name, CleanComp x := by
  intro x hx
  simp only [sanitizeParts, List.mem_filter, decide_not, Bool.not_eq_eq_eq_not,
    Bool.not_true, decide_eq_false_iff_not] at hx
  obtain ⟨hmem, hcond⟩ := hx
  push_neg at hcond
  exact ⟨hcond.1, splitSlash_no_slash name x hmem, hcond.2.1, hcond.2.2⟩

theorem splitSlash_append_slash (s : Str) :
    splitSlash (s ++ ['/']) = splitSlash s ++ [[]] := by
  induction s with
  | nil => rfl
  | cons c rest ih =>
    by_cases hc : c = '/'
    · simp only [List.cons_append, splitSlash, if_pos hc, List.append_eq, ih]
    · simp only [List.cons_append, splitSlash, if_neg hc, List.append_eq, ih]
      rcases hs : splitSlash rest with _ | ⟨hh, tt⟩
      · exact absurd hs (splitSlash_ne_nil rest)
      · rfl

theorem joinSlash_ne_nil (c : Str) (t : List Str) (hc : c ≠ []) :
    joinSlash (c :: t) ≠ [] := by
  rcases t with _ | ⟨d, t'⟩
  · rw [joinSlash_single]; exact hc
  · rw [joinSlash_cons c _ (by simp)]
    rcases c with _ | ⟨a, as⟩
    · exact absurd rfl hc
    · simp

theorem getLast?_joinSlash_ne_slash (comps : List Str) (hne : comps ≠ [])
    (h : ∀ c ∈ comps, CleanComp c) :
    (joinSlash comps).getLast? ≠ some '/' := by
  induction comps with
  | nil => exact absurd rfl hne
  | cons c t ih =>
    rcases t with _ | ⟨d, t'⟩
    · rw [joinSlash_single]
      intro hl
      have hmem : '/' ∈ c := List.mem_of_mem_getLast? hl
      exact (h c (by simp)).2.1 hmem
    · rw [joinSlash_cons c _ (by simp)]
      have hdne : joinSlash (d :: t') ≠ [] :=
        joinSlash_ne_nil d t' (h d (by simp)).1
      rw [List.getLast?_append_of_ne_nil c (by simp)]
      have : ('/' :: joinSlash (d :: t') : Str) = ['/'] ++ joinSlash (d :: t') := rfl
      rw [this, List.getLast?_append_of_ne_nil ['/'] hdne]
      exact ih (by simp) (fun x hx => h x (List.mem_cons_of_mem c hx))

theorem getLast?_renderAbs_ne_slash (comps : List Str) (hne : comps ≠ [])
    (h : ∀ c ∈ comps, CleanComp c) :
    (renderAbs comps).getLast? ≠ some '/' := by
  rcases comps with _ | ⟨c, t⟩
  · exact absurd rfl hne
  · have hj : joinSlash (c :: t) ≠ [] := joinSlash_ne_nil c t (h c (by simp)).1
    unfold renderAbs
    have : ('/' :: joinSlash (c :: t) : Str) = ['/'] ++ joinSlash (c :: t) := rfl
    rw [this, List.getLast?_append_of_ne_nil ['/'] hj]
    exact getLast?_joinSlash_ne_slash (c :: t) (by simp) h

theorem normpath_renderAbs_trailing (comps : List Str) (hne : comps ≠ [])
    (h : ∀ c ∈ comps, CleanComp c) :
    normpath (renderAbs comps ++ ['/']) = renderAbs comps := by
  have hsplit : splitSlash (renderAbs comps ++ ['/']) = [] :: (comps ++ [[]]) := by
    have h1 : (renderAbs comps ++ ['/'] : Str) =
        '/' :: (joinSlash comps ++ ['/']) := rfl
    rw [h1]
    have h2 : splitSlash ('/' :: (joinSlash comps ++ ['/'])) =
        [] :: splitSlash (joinSlash comps ++ ['/']) := by
      simp [splitSlash]
    rw [h2, splitSlash_append_slash,
      splitSlash_joinSlash comps hne (fun c hc => (h c hc).2.1)]
  have hslash : initialSlashCount (renderAbs comps ++ ['/']) = 1 := by
    unfold initialSlashCount
    have h2 : ¬ (['/', '/'] <+: renderAbs comps ++ ['/']) := by
      intro hp
      unfold renderAbs at hp
      have h3 : ('/' :: joinSlash comps ++ ['/'] : Str) =
          '/' :: (joinSlash comps ++ ['/']) := rfl
      rw [h3] at hp
      rcases List.cons_prefix_cons.mp hp with ⟨-, h4⟩
      rcases comps with _ | ⟨c, t⟩
      · exact absurd rfl hne
      · obtain ⟨hcne, hcs, -, -⟩ := h c (by simp)
        rcases c with _ | ⟨a, as⟩
        · exact absurd rfl hcne
        · have ha : a ≠ '/' := fun hh => hcs (by simp [hh])
          rcases t with _ | ⟨d, t'⟩
          · rw [joinSlash_single] at h4
            rcases List.cons_prefix_cons.mp h4 with ⟨h5, -⟩
            exact ha h5.symm
          · rw [joinSlash_cons _ _ (by simp)] at h4
            rcases List.cons_prefix_cons.mp h4 with ⟨h5, -⟩
            exact ha h5.symm
    rw [if_neg (by tauto)]
    rw [if_pos]
    unfold renderAbs
    exact List.cons_prefix_cons.mpr ⟨rfl, List.nil_prefix⟩
  have hparts : normParts 1 ([] :: (comps ++ [[]])) = comps := by
    rw [normParts_cons_nil]
    unfold normParts
    rw [List.foldl_append, normParts_clean_append 1 comps [] h]
    simp
  unfold normpath
  rw [if_neg (by simp [renderAbs]), hslash, hsplit]
  simp [hparts, renderAbs]

/-- Counterexample to claim C2 as stated: the archive entry `../evil.txt`
has resolved output path `/evil.txt`, which is not a descendant of the
destination `/save`; yet extraction does not fail — CPython's
`extractall` strips the `..` component and silently writes the entry
inside the destination, at `/save/evil.txt`. -/
theorem c2_extract_counterexample :
    resolvedOutputPath (str "/save") (str "../evil.txt") = str "/evil.txt" ∧
    ¬ ((str "/save" ++ ['/'] : Str) <+: str "/evil.txt") ∧
    (str "/evil.txt" : Str) ≠ str "/save" ∧
    extractall (str "/save") [str "../evil.txt"] = [str "/save/evil.txt"] ∧
    ((str "/save" ++ ['/'] : Str) <+: str "/save/evil.txt") := by
  refine ⟨by decide, by decide, by decide, by decide, by decide⟩

/-- Amended claim C2: extraction never rejects an entry; instead, every
entry of every archive is placed at the destination directory extended by
the sanitized (drive-, dot- and dot-dot-free) components of its stored
name — inside the destination (or at the destination itself when nothing
remains), never outside it, entries resolving outside being silently
relocated inward. -/
theorem c2_extract_places_inside (dcomps : List Str)
    (hd : ∀ c ∈ dcomps, CleanComp c) (memberName : Str) :
    ∃ extra, (∀ c ∈ extra, CleanComp c) ∧
      extractMemberPath (renderAbs dcomps) memberName =
        renderAbs (dcomps ++ extra) := by
  refine ⟨sanitizeParts memberName, sanitizeParts_clean memberName, ?_⟩
  unfold extractMemberPath
  rcases hsan : sanitizeParts memberName with _ | ⟨e, et⟩
  · rw [joinSlash_nil]
    rcases hdc : dcomps with _ | ⟨c, t⟩
    · decide
    · subst hdc
      have hga : (renderAbs (c :: t)).getLast? ≠ some '/' :=
        getLast?_renderAbs_ne_slash (c :: t) (by simp) hd
      have hne2 : renderAbs (c :: t) ≠ [] := by simp [renderAbs]
      rw [pjoin, if_neg (by decide),
        if_neg (by rintro (h0 | h0); exacts [hne2 h0, hga h0])]
      have h1 : (renderAbs (c :: t) ++ '/' :: ([] : Str)) =
          renderAbs (c :: t) ++ ['/'] := rfl
      rw [h1, normpath_renderAbs_trailing (c :: t) (by simp) hd]
      simp
  · have hclean : ∀ x ∈ (e :: et), CleanComp x := by
      rw [← hsan]; exact sanitizeParts_clean memberName
    have habs : ¬ (isAbs (joinSlash (e :: et)) = true) := by
      simp only [isAbs, decide_eq_true_eq]
      exact joinSlash_not_slash_head _ hclean
    rcases hdc : dcomps with _ | ⟨c, t⟩
    · rw [pjoin, if_neg habs,
        if_pos (Or.inr (show (renderAbs []).getLast? = some '/' by decide))]
      have h1 : (renderAbs [] ++ joinSlash (e :: et) : Str) =
          renderAbs (e :: et) := rfl
      rw [h1, normpath_renderAbs _ hclean]
      rfl
    · subst hdc
      have hga := getLast?_renderAbs_ne_slash (c :: t) (by simp) hd
      have hne2 : renderAbs (c :: t) ≠ [] := by simp [renderAbs]
      rw [pjoin, if_neg habs,
        if_neg (by rintro (h0 | h0); exacts [hne2 h0, hga h0])]
      have hjoin : (renderAbs (c :: t) ++ '/' :: joinSlash (e :: et) : Str) =
          renderAbs ((c :: t) ++ (e :: et)) := by
        unfold renderAbs
        rw [joinSlash_append (c :: t) (e :: et) (by simp) (by simp)]
        rfl
      rw [hjoin, normpath_renderAbs _ ?h]
      case h =>
        intro x hx
        rcases List.mem_append.mp hx with h0 | h0
        · exact hd x h0
        · exact hclean x h0

/-- Witness for the amended claim C2 at the traversal entry
`../evil.txt` against destination `/save`. -/
theorem c2_extract_places_inside_witness :
    ∃ extra, (∀ c ∈ extra, CleanComp c) ∧
      extractMemberPath (renderAbs [str "save"]) (str "../evil.txt") =
        renderAbs ([str "save"] ++ extra) :=
  c2_extract_places_inside [str "save"] (by decide) (str "../evil.txt")

/-! Plugin manager (`plugin_manager.py`, `plugins/base.py`). -/

/-- Model of the `GamePlugin` descriptor interface (`plugins/base.py`):
the properties a plugin exposes, with the base-class defaults. -/
structure GamePlugin where
  game_id : Str
  game_name : Str
  save_paths : List Str
  file_patterns : List Str := [str "*"]
  registry_keys : List (Str × Str) := []
  icon : Str := []
deriving DecidableEq

namespace PluginManager

/-- Dict assignment `self.available_plugins[plugin.game_id] = plugin`: an
existing key keeps its position but takes the new value; a new key is
appended. -/
def insertPlugin : List (Str × GamePlugin) → GamePlugin → List (Str × GamePlugin)
  | [], p => [(p.game_id, p)]
  | (k, q) :: rest, p =>
    if k = p.game_id then (k, p) :: rest else (k, q) :: insertPlugin rest p

/-- Dict lookup `available_plugins.get(game_id)`. -/
def lookupPlugin : List (Str × GamePlugin) → Str → Option GamePlugin
  | [], _ => none
  | (k, q) :: rest, g => if k = g then some q else lookupPlugin rest g

/-- Model of `_load_code_plugins`: the modules found under `plugins/` in
`pkgutil.iter_modules` order; `none` models a module whose import raised
(logged and skipped), `some ps` the list its `get_plugins()` returns.
Icon-processing failures are caught separately and never prevent
registration. -/
def load_code_plugins (modules : List (Option (List GamePlugin)))
    (m : List (Str × GamePlugin)) : List (Str × GamePlugin) :=
  modules.foldl
    (fun acc mod =>
      match mod with
      | none => acc
      | some ps => ps.foldl insertPlugin acc)
    m

/-- Model of `_load_json_plugins`: `none` models a missing `games.jsonc`
or one whose parse failed (everything skipped); within a parsed array,
`none` entries model `plugin_from_json` constructions that raised and
were skipped individually. -/
def load_json_plugins (jsonc : Option (List (Option GamePlugin)))
    (m : List (Str × GamePlugin)) : List (Str × GamePlugin) :=
  match jsonc with
  | none => m
  | some entries =>
    entries.foldl
      (fun acc entry =>
        match entry with
        | none => acc
        | some p => insertPlugin acc p)
      m

/-- Model of `PluginManager.load_plugins` (the body of `reload`): clear
the mapping, load code plugins, then JSON plugins. -/
def load_plugins (modules : List (Option (List GamePlugin)))
    (jsonc : Option (List (Option GamePlugin))) : List (Str × GamePlugin) :=
  load_json_plugins jsonc (load_code_plugins modules [])

end PluginManager

theorem lookup_insertPlugin (m : List (Str × GamePlugin)) (p : GamePlugin)
    (g : Str) :
    PluginManager.lookupPlugin (PluginManager.insertPlugin m p) g =
      if p.game_id = g then some p else PluginManager.lookupPlugin m g := by
  induction m with
  | nil =>
    by_cases h : p.game_id = g <;>
      simp [PluginManager.insertPlugin, PluginManager.lookupPlugin, h]
  | cons kv rest ih =>
    rcases kv with ⟨k, q⟩
    by_cases hk : k = p.game_id
    · simp only [PluginManager.insertPlugin]
      rw [if_pos hk]
      simp only [PluginManager.lookupPlugin]
      by_cases hg : k = g
      · have hpg : p.game_id = g := hk.symm.trans hg
        rw [if_pos hg, if_pos hpg]
      · have hpg : p.game_id ≠ g := fun h0 => hg (hk.trans h0)
        rw [if_neg hg, if_neg hpg, if_neg hg]
    · simp only [PluginManager.insertPlugin]
      rw [if_neg hk]
      simp only [PluginManager.lookupPlugin]
      by_cases hg : k = g
      · have hpg : p.game_id ≠ g := fun h0 => hk (hg.trans h0.symm)
        rw [if_pos hg, if_neg hpg, if_pos hg]
      · rw [if_neg hg, ih, if_neg hg]

theorem lookup_load_json (entries : List (Option GamePlugin))
    (m : List (Str × GamePlugin)) (g : Str) :
    PluginManager.lookupPlugin (PluginManager.load_json_plugins (some entries) m) g =
      match ((entries.filterMap id).filter (fun p => p.game_id = g)).getLast? with
      | some p => some p
      | none => PluginManager.lookupPlugin m g := by
  induction entries using List.reverseRecOn generalizing m with
  | nil => simp [PluginManager.load_json_plugins]
  | append_singleton init e ih =>
    simp only [PluginManager.load_json_plugins, List.foldl_append, List.foldl_cons,
      List.foldl_nil]
    rcases e with _ | p
    · have hi := ih m
      simp only [PluginManager.load_json_plugins] at hi
      rw [hi]
      simp [List.filterMap_append]
    · rw [lookup_insertPlugin]
      by_cases hg : p.game_id = g
      · rw [if_pos hg]
        simp [List.filterMap_append, List.filter_append, hg]
      · rw [if_neg hg]
        have hi := ih m
        simp only [PluginManager.load_json_plugins] at hi
        rw [hi]
        simp [List.filterMap_append, List.filter_append, hg]

/-- Claim C9: after `reload`, a `gameId` defined both by a code module and
by a successfully parsed `games.jsonc` entry maps to the data-defined
version — the last JSON entry carrying that id — because code plugins load
first and each later insertion with a duplicate id overwrites the earlier
mapping. -/
theorem c9_reload_data_defined_wins
    (modules : List (Option (List GamePlugin)))
    (entries : List (Option GamePlugin)) (g : Str)
    (pc : GamePlugin) (ps : List GamePlugin)
    (hcode : some ps ∈ modules ∧ pc ∈ ps ∧ pc.game_id = g)
    (pj : GamePlugin)
    (hjson : ((entries.filterMap id).filter (fun p => p.game_id = g)).getLast? =
      some pj) :
    PluginManager.lookupPlugin (PluginManager.load_plugins modules (some entries)) g =
      some pj := by
  unfold PluginManager.load_plugins
  rw [lookup_load_json, hjson]

/-- Witness for claim C9: a code module defines `g1` and `games.jsonc`
also defines `g1`; the registry maps `g1` to the JSON version. -/
theorem c9_reload_data_defined_wins_witness :
    PluginManager.lookupPlugin
      (PluginManager.load_plugins
        [some [{ game_id := str "g1", game_name := str "Code version",
                 save_paths := [str "%APPDATA%/G1"] }]]
        (some [some { game_id := str "g1", game_name := str "Data version",
                      save_paths := [str "%LOCALAPPDATA%/G1"] }]))
      (str "g1") =
      some { game_id := str "g1", game_name := str "Data version",
             save_paths := [str "%LOCALAPPDATA%/G1"] } :=
  c9_reload_data_defined_wins
    [some [{ game_id := str "g1", game_name := str "Code version",
             save_paths := [str "%APPDATA%/G1"] }]]
    [some { game_id := str "g1", game_name := str "Data version",
            save_paths := [str "%LOCALAPPDATA%/G1"] }]
    (str "g1")
    { game_id := str "g1", game_name := str "Code version",
      save_paths := [str "%APPDATA%/G1"] }
    [{ game_id := str "g1", game_name := str "Code version",
       save_paths := [str "%APPDATA%/G1"] }]
    ⟨by simp, by simp, rfl⟩
    { game_id := str "g1", game_name := str "Data version",
      save_paths := [str "%LOCALAPPDATA%/G1"] }
    (by decide)
